import Mathlib

/-!
Verification of the federated-learning simulation repository
(`src/data_utils.py`, `src/training.py`, `src/experiments_int8.py`).

The Python code is shallowly embedded: pure functions become Lean
functions, Python runtime errors (`IndexError`, `KeyError`, `ValueError`,
shape errors raised by `torch.cat`) become `none` / `Except.error`
results, Python `int` becomes `Int`, and floating-point tensors are
modelled over `ℚ`.
-/

/-- Python-style indexing `a[i]` into a list: a negative index wraps
around once (`a[-1]` is the last element); an index that is still out of
range raises `IndexError`, modelled as `none`. -/
def pyIdx (a : List Int) (i : Int) : Option Int :=
  if 0 ≤ i then a[i.toNat]?
  else if 0 ≤ i + a.length then a[(i + a.length).toNat]?
  else none

/-- Embedding of `data_utils.first_index`: recursive binary search for the
first index holding `item`.  `none` models a raised `IndexError` (Python
evaluates `array[mid - 1]` and `array[mid]` with no bound check); `some r`
models `return r`.  Short-circuit evaluation of
`(mid == 0 or item > array[mid-1]) and array[mid] == item` is preserved:
`array[mid-1]` is only read when `mid ≠ 0`, and `array[mid]` is read both
by the equality test and by the `elif item > array[mid]` comparison. -/
def first_index (a : List Int) (low high item : Int) : Option Int :=
  if low ≤ high then
    match (if low + (high - low) / 2 = 0 then some true
           else (pyIdx a (low + (high - low) / 2 - 1)).map (fun v => decide (item > v))) with
    | none => none
    | some b =>
      match pyIdx a (low + (high - low) / 2) with
      | none => none
      | some v =>
        if b ∧ v = item then some (low + (high - low) / 2)
        else if item > v then first_index a (low + (high - low) / 2 + 1) high item
        else first_index a low (low + (high - low) / 2 - 1) item
  else some (-1)
termination_by (high - low + 1).toNat
decreasing_by
  · omega
  · omega

/-- Embedding of `data_utils.last_index`: recursive binary search for the
last index holding `item`, with the same `IndexError`-as-`none` modelling
as `first_index` (`array[mid + 1]` is only read when `mid ≠ len - 1`). -/
def last_index (a : List Int) (low high item : Int) : Option Int :=
  if low ≤ high then
    match (if low + (high - low) / 2 = (a.length : Int) - 1 then some true
           else (pyIdx a (low + (high - low) / 2 + 1)).map (fun v => decide (item < v))) with
    | none => none
    | some b =>
      match pyIdx a (low + (high - low) / 2) with
      | none => none
      | some v =>
        if b ∧ v = item then some (low + (high - low) / 2)
        else if item < v then last_index a low (low + (high - low) / 2 - 1) item
        else last_index a (low + (high - low) / 2 + 1) high item
  else some (-1)
termination_by (high - low + 1).toNat
decreasing_by
  · omega
  · omega

/-- Fuel-indexed version of `first_index`: the outer `none` means the
call budget `n` was exhausted before a base case was reached, while
`some r` means the recursion finished with result `r` (where `r` follows
the `Option` convention of `first_index`). -/
def firstIndexFuel : Nat → List Int → Int → Int → Int → Option (Option Int)
  | 0, _, _, _, _ => none
  | n + 1, a, low, high, item =>
    if low ≤ high then
      match (if low + (high - low) / 2 = 0 then some true
             else (pyIdx a (low + (high - low) / 2 - 1)).map (fun v => decide (item > v))) with
      | none => some none
      | some b =>
        match pyIdx a (low + (high - low) / 2) with
        | none => some none
        | some v =>
          if b ∧ v = item then some (some (low + (high - low) / 2))
          else if item > v then firstIndexFuel n a (low + (high - low) / 2 + 1) high item
          else firstIndexFuel n a low (low + (high - low) / 2 - 1) item
    else some (some (-1))

/-- Fuel-indexed version of `last_index`, with the same conventions as
`firstIndexFuel`. -/
def lastIndexFuel : Nat → List Int → Int → Int → Int → Option (Option Int)
  | 0, _, _, _, _ => none
  | n + 1, a, low, high, item =>
    if low ≤ high then
      match (if low + (high - low) / 2 = (a.length : Int) - 1 then some true
             else (pyIdx a (low + (high - low) / 2 + 1)).map (fun v => decide (item < v))) with
      | none => some none
      | some b =>
        match pyIdx a (low + (high - low) / 2) with
        | none => some none
        | some v =>
          if b ∧ v = item then some (some (low + (high - low) / 2))
          else if item < v then lastIndexFuel n a low (low + (high - low) / 2 - 1) item
          else lastIndexFuel n a (low + (high - low) / 2 + 1) high item
    else some (some (-1))

/-- Python list slice-index normalization: a negative index counts from
the end (clamped below at 0), a non-negative one is clamped above at the
length. -/
def pySliceIdx (len : Nat) (i : Int) : Nat :=
  if i < 0 then (i + len).toNat else min i.toNat len

/-- Python list slicing `l[a:b]` with int endpoints (step 1). -/
def pySlice {α : Type} (l : List α) (a b : Int) : List α :=
  (l.drop (pySliceIdx l.length a)).take (pySliceIdx l.length b - pySliceIdx l.length a)

/-- Ordering of `(label, position)` pairs by label, used to model
`torch.sort` on the 1-D labels tensor. -/
def labelLe (p q : Int × Nat) : Prop := p.1 ≤ q.1

instance : DecidableRel labelLe := fun p q => inferInstanceAs (Decidable (p.1 ≤ q.1))

instance : IsTotal (Int × Nat) labelLe := ⟨fun p q => Int.le_total p.1 q.1⟩

instance : IsTrans (Int × Nat) labelLe := ⟨fun _ _ _ => le_trans⟩

/-- Model of `labels, sorted_indices = torch.sort(labels)`: pair every
label with its position, sort by label.  (`torch.sort` promises an
ascending reordering; which ascending permutation is irrelevant to the
properties proved below, so a concrete sort is used.) -/
def sortPairs (l : List (Int × Nat)) : List (Int × Nat) :=
  List.insertionSort labelLe l

/-- Embedding of `data_utils.get_non_iid_datasets` (the plain
`TensorDataset` branch, in which `labels = train_dataset.tensors[1]`; the
`Subset` branch only composes the resulting positions with the subset's
own index list).  Each client's shard is the Python slice
`sorted_indices[first_idx : last_idx + 1]` of positions sorted by label;
`digit` accumulates `digits_per_client` per client, so on iteration
`client` it equals `client * digits_per_client`.  `none` models an
uncaught `IndexError` escaping from `first_index` / `last_index`. -/
def clientShard (sortedLabels : List Int) (sorted_indices : List Nat)
    (num_clients digits_per_client : Nat) (client : Int) : Option (List Nat) := do
  let first_idx ← first_index sortedLabels 0 (sortedLabels.length : Int)
    (client * (digits_per_client : Int))
  let last_idx ←
    if client = (num_clients : Int) - 1 then some ((sortedLabels.length : Int) - 1)
    else (last_index sortedLabels 0 (sortedLabels.length : Int)
      (client * (digits_per_client : Int) + (digits_per_client : Int) - 1))
  some (pySlice sorted_indices first_idx (last_idx + 1))

def get_non_iid_datasets (num_clients : Nat) (labels : List Int) : Option (List (List Nat)) :=
  let s := sortPairs (labels.zip (List.range labels.length))
  ((List.range num_clients).map (fun a : Nat => (a : Int))).mapM
    (clientShard (s.map Prod.fst) (s.map Prod.snd) num_clients (10 / num_clients))

/-- The labels of the samples referenced by a shard (a shard is a list of
indices into the original dataset). -/
def shardLabels (labels : List Int) (shard : List Nat) : List Int :=
  shard.map (fun j => labels.getD j 0)

/-- The conclusion of the non-IID partitioning correctness property: the
call succeeds, yields one shard per client, client `i`'s shard holds
exactly the labels of its contiguous digit range (hence `10 / k` distinct
labels), different clients' label sets are disjoint, and every dataset
index lands in some shard (so the last client's boundary reaches the end
of the sorted sequence). -/
def NonIIDGood (num_clients : Nat) (labels : List Int) : Prop :=
  ∃ shards, get_non_iid_datasets num_clients labels = some shards ∧
    shards.length = num_clients ∧
    (∀ i : Fin shards.length, ∀ x : Int,
      x ∈ shardLabels labels (shards.get i) ↔
        (i : Int) * ((10 / num_clients : Nat) : Int) ≤ x ∧
          x < ((i : Int) + 1) * ((10 / num_clients : Nat) : Int)) ∧
    (∀ i : Fin shards.length,
      (shardLabels labels (shards.get i)).toFinset.card = 10 / num_clients) ∧
    (∀ i j : Fin shards.length, i ≠ j → ∀ x : Int,
      x ∈ shardLabels labels (shards.get i) → x ∉ shardLabels labels (shards.get j)) ∧
    (∀ idx, idx < labels.length → ∃ i : Fin shards.length, idx ∈ shards.get i)

/-- A parameter tensor: its shape and its (flattened, row-major) entries.
Floating-point values are modelled over `ℚ`. -/
structure Tensor where
  shape : List Nat
  data : List ℚ
deriving DecidableEq

/-- A Parameter Mapping (`dict(model.named_parameters())` /
`model.state_dict()`): an ordered association of parameter names to
tensors. -/
abbrev ParamMap := List (String × Tensor)

/-- Failure modes of `training.average_client_models`: `EmptyInput` is the
`IndexError` raised by `dicts[0]` on an empty input, `KeyError` the
lookup failure `dictionary[key]`, and `ShapeMismatch` the `RuntimeError`
raised by `torch.cat` on tensors of unequal shapes. -/
inductive AggError where
  | EmptyInput
  | KeyError (key : String)
  | ShapeMismatch
deriving DecidableEq

/-- `torch.cat([t.unsqueeze(0) for t in ts], dim=0).sum(0)`: requires all
shapes equal, then sums element-wise. -/
def catSumTensors (ts : List Tensor) : Except AggError Tensor :=
  match ts with
  | [] => .error .ShapeMismatch
  | t :: rest =>
    if rest.all (fun u => decide (u.shape = t.shape)) then
      .ok (rest.foldl (fun acc u => ⟨acc.shape, List.zipWith (· + ·) acc.data u.data⟩) t)
    else .error .ShapeMismatch

/-- `.div(n)`: element-wise division. -/
def divTensor (t : Tensor) (n : Nat) : Tensor :=
  ⟨t.shape, t.data.map (· / (n : ℚ))⟩

/-- `dictionary[key]`: a dict lookup whose failure raises `KeyError`. -/
def lookupE (key : String) (d : ParamMap) : Except AggError Tensor :=
  match d.lookup key with
  | some t => Except.ok t
  | none => Except.error (AggError.KeyError key)

/-- The per-key body of `average_client_models`:
`torch.cat([d[key].unsqueeze(0) for d in dicts], dim=0).sum(0).div(len(dicts))`,
paired with its key. -/
def averageAtKey (dicts : List ParamMap) (key : String) : Except AggError (String × Tensor) :=
  match dicts.mapM (lookupE key) with
  | .error e => .error e
  | .ok ts =>
    match catSumTensors ts with
    | .error e => .error e
    | .ok s => .ok (key, divTensor s dicts.length)

/-- Embedding of `training.average_client_models`, applied to the clients'
parameter mappings (`dicts`).  The key list is taken from the first
mapping (`dict_keys = dicts[0].keys()`), and each key of it is averaged
by `averageAtKey`. -/
def average_client_models (dicts : List ParamMap) : Except AggError ParamMap :=
  match dicts with
  | [] => .error .EmptyInput
  | d0 :: rest => (d0.map Prod.fst).mapM (averageAtKey (d0 :: rest))

/-- `f` is the position of the first occurrence of `v` in `sl`. -/
def IsFirstOcc (sl : List Int) (v : Int) (f : Nat) : Prop :=
  sl[f]? = some v ∧ ∀ j, j < f → sl[j]? ≠ some v

/-- `l` is the position of the last occurrence of `v` in `sl`. -/
def IsLastOcc (sl : List Int) (v : Int) (l : Nat) : Prop :=
  sl[l]? = some v ∧ ∀ j, l < j → sl[j]? ≠ some v

/-- Compatibility of two Parameter Mappings in the sense of the data
model: identical key sets and identical per-key tensor shapes. -/
def compatible (d d' : ParamMap) : Prop :=
  (d.map Prod.fst).toFinset = (d'.map Prod.fst).toFinset ∧
  ∀ p ∈ d, ∀ t', d'.lookup p.1 = some t' → p.2.shape = t'.shape

/-- The element-wise arithmetic mean taken at key `k`, position `j`, over
a list of parameter mappings: the sum of the entries divided by the
number of mappings (the spec's description of the Aggregator's output). -/
def meanAt (dicts : List ParamMap) (k : String) (j : Nat) : ℚ :=
  (dicts.map (fun d => ((d.lookup k).getD ⟨[], []⟩).data.getD j 0)).sum / (dicts.length : ℚ)

/-- A value stored in the `experiment_state` dict: the bits fields start
as Python lists and the client-direction ones are later overwritten with
plain ints, so both shapes are representable. -/
inductive BitsField where
  | vlist (l : List Int)
  | vint (n : Int)
deriving DecidableEq

/-- Embedding of the `experiment_state` dict of `experiments_int8.py`. -/
structure ExperimentState where
  num_rounds : Int
  test_accuracies : List ℚ
  conserved_bits_from_server : List Int
  transferred_bits_from_server : List Int
  original_bits_from_server : List Int
  conserved_bits_from_clients : BitsField
  transferred_bits_from_clients : BitsField
  original_bits_from_clients : BitsField
deriving DecidableEq

/-- The initial `experiment_state` literal (lines 43–51). -/
def initial_experiment_state : ExperimentState :=
  ⟨0, [], [], [], [], .vlist [], .vlist [], .vlist []⟩

/-- `functools.reduce(lambda x, y: x * y, l)`: `none` models the
`TypeError` raised on an empty sequence. -/
def pyReduceMul (l : List Int) : Option Int :=
  match l with
  | [] => none
  | x :: xs => some (xs.foldl (· * ·) x)

/-- The broadcast phase of a round (`if num_rounds > 1` block): the loop
body runs once per client, and each iteration measures the same server
model and appends the same conserved/transferred/original bit counts
(`get_model_bits` and the quantizer are deterministic and the server
model is not written inside the loop). -/
def broadcast_phase_update (st : ExperimentState) (num_clients : Nat)
    (floatBits encBits : Int) : ExperimentState :=
  { st with
    conserved_bits_from_server :=
      st.conserved_bits_from_server ++ List.replicate num_clients (floatBits - encBits)
    transferred_bits_from_server :=
      st.transferred_bits_from_server ++ List.replicate num_clients encBits
    original_bits_from_server :=
      st.original_bits_from_server ++ List.replicate num_clients floatBits }

/-- The aggregate phase of a round (lines 90–108): `clients_bits` and
`quantized_clients_bits` are `reduce`-products of the per-client model
sizes before/after quantization, and the three client-direction fields
are ASSIGNED (not appended) these scalar values. -/
def aggregate_phase_update (st : ExperimentState) (origSizes encSizes : List Int) :
    Option ExperimentState :=
  match pyReduceMul origSizes, pyReduceMul encSizes with
  | some clients_bits, some q_bits =>
    some { st with
      conserved_bits_from_clients := .vint (clients_bits - q_bits)
      transferred_bits_from_clients := .vint q_bits
      original_bits_from_clients := .vint clients_bits }
  | _, _ => none

/-- One iteration of the `while testing_accuracy < target_accuracy` loop,
as far as `experiment_state` is concerned: broadcast phase (skipped on
round 1), aggregate phase, then the accuracy append and round-counter
update.  The bit sizes produced by `get_model_bits` and the quantizer are
abstracted as parameters. -/
def round_update (st : ExperimentState) (round_num : Int) (num_clients : Nat)
    (floatBits encBits : Int) (origSizes encSizes : List Int) (acc : ℚ) :
    Option ExperimentState :=
  let st1 := if 1 < round_num then broadcast_phase_update st num_clients floatBits encBits else st
  match aggregate_phase_update st1 origSizes encSizes with
  | none => none
  | some st2 =>
    some { st2 with
      test_accuracies := st2.test_accuracies ++ [acc]
      num_rounds := round_num }

/-- Split a permuted index list into consecutive chunks of the given
lengths (the index arithmetic inside `torch.utils.data.random_split`). -/
def splitChunks (perm : List Nat) : List Nat → List (List Nat)
  | [] => []
  | n :: ns => perm.take n :: splitChunks (perm.drop n) ns

/-- Model of `torch.utils.data.random_split(dataset, lengths)`: the
random permutation draw is abstracted as the parameter `perm`
(`randperm(sum(lengths))`), and the call raises `ValueError` (modelled as
`none`) when the lengths do not sum to the dataset length. -/
def random_split (perm : List Nat) (lengths : List Nat) : Option (List (List Nat)) :=
  if lengths.sum = perm.length then some (splitChunks perm lengths) else none

/-- Embedding of the IID branch of `data_utils.get_data_loaders`:
`random_split(train_dataset, [len(train_dataset) // num_clients] * num_clients)`
(the `np.tile(int(len/num_clients), num_clients)` lengths), over an
abstracted permutation draw `perm` of the dataset's index set. -/
def iid_client_datasets (num_clients : Nat) (perm : List Nat) : Option (List (List Nat)) :=
  random_split perm (List.replicate num_clients (perm.length / num_clients))

/-- Element dtypes occurring in the experiment's parameter mappings. -/
inductive DType where
  | float32
  | float16
  | int8
deriving DecidableEq

/-- Bits per element of each dtype. -/
def DType.bits : DType → Nat
  | .float32 => 32
  | .float16 => 16
  | .int8 => 8

/-- The dtype and element count of one stored tensor. -/
structure TensorMeta where
  dtype : DType
  numel : Nat
deriving DecidableEq

/-- Modelled from the spec: `get_model_bits` serializes the mapping
through the representation that is actually transferred and reports
"size in bits (byte count × 8)" (§4.3); `weight_quantization.py` itself
is not part of the sources.  The serialized form is `overheadBytes` of
codec framing plus each tensor's elements at their dtype's width. -/
def size_in_bits (m : List TensorMeta) (overheadBytes : Nat) : Nat :=
  8 * overheadBytes + (m.map (fun t => t.numel * t.dtype.bits)).sum

/-- Modelled from the spec: scheme B (`quantize_int8`) "encode[s] each
tensor as round(value * s) stored in 8 bits" (§4.2), so every tensor of
the quantized payload is stored at the 8-bit integer dtype. -/
def quantize_int8_meta (m : List TensorMeta) : List TensorMeta :=
  m.map (fun t => ⟨DType.int8, t.numel⟩)

instance {ε α : Type} [DecidableEq ε] [DecidableEq α] : DecidableEq (Except ε α) := fun a b =>
  match a, b with
  | .error e, .error e' =>
    if h : e = e' then isTrue (by rw [h]) else isFalse (by intro hh; cases hh; exact h rfl)
  | .error _, .ok _ => isFalse (by intro h; cases h)
  | .ok _, .error _ => isFalse (by intro h; cases h)
  | .ok a, .ok b =>
    if h : a = b then isTrue (by rw [h]) else isFalse (by intro hh; cases hh; exact h rfl)

theorem firstIndexFuel_eq (n : Nat) (a : List Int) (low high item : Int)
    (h : (high - low + 1).toNat < n) :
    firstIndexFuel n a low high item = some (first_index a low high item) := by
  induction n generalizing low high with
  | zero => omega
  | succ n ih =>
    rw [first_index, firstIndexFuel]
    by_cases hlh : low ≤ high
    · rw [if_pos hlh, if_pos hlh]
      split
      · rfl
      · split
        · rfl
        · split
          · rfl
          · split
            · exact ih _ _ (by omega)
            · exact ih _ _ (by omega)
    · rw [if_neg hlh, if_neg hlh]

theorem lastIndexFuel_eq (n : Nat) (a : List Int) (low high item : Int)
    (h : (high - low + 1).toNat < n) :
    lastIndexFuel n a low high item = some (last_index a low high item) := by
  induction n generalizing low high with
  | zero => omega
  | succ n ih =>
    rw [last_index, lastIndexFuel]
    by_cases hlh : low ≤ high
    · rw [if_pos hlh, if_pos hlh]
      split
      · rfl
      · split
        · rfl
        · split
          · rfl
          · split
            · exact ih _ _ (by omega)
            · exact ih _ _ (by omega)
    · rw [if_neg hlh, if_neg hlh]

theorem first_index_of_fuel {n : Nat} {a : List Int} {low high item : Int} {r : Option Int}
    (h1 : firstIndexFuel n a low high item = some r) (h2 : (high - low + 1).toNat < n) :
    first_index a low high item = r := by
  have h := firstIndexFuel_eq n a low high item h2
  rw [h1] at h
  exact (Option.some.inj h).symm

theorem last_index_of_fuel {n : Nat} {a : List Int} {low high item : Int} {r : Option Int}
    (h1 : lastIndexFuel n a low high item = some r) (h2 : (high - low + 1).toNat < n) :
    last_index a low high item = r := by
  have h := lastIndexFuel_eq n a low high item h2
  rw [h1] at h
  exact (Option.some.inj h).symm

theorem pyIdx_nonneg (a : List Int) (i : Int) (h : 0 ≤ i) : pyIdx a i = a[i.toNat]? := by
  simp [pyIdx, h]

theorem sorted_get_le (a : List Int) (hs : List.Pairwise (· ≤ ·) a)
    {i j : Nat} {x y : Int} (hij : i ≤ j) (hx : a[i]? = some x) (hy : a[j]? = some y) : x ≤ y := by
  obtain ⟨hi, hx⟩ := List.getElem?_eq_some.mp hx
  obtain ⟨hj, hy⟩ := List.getElem?_eq_some.mp hy
  subst hx hy
  rcases Nat.eq_or_lt_of_le hij with h | h
  · subst h; rfl
  · exact List.pairwise_iff_get.mp hs ⟨i, hi⟩ ⟨j, hj⟩ h

theorem first_index_found (a : List Int) (item : Int) (f : Nat)
    (hs : List.Pairwise (· ≤ ·) a)
    (hf : a[f]? = some item) (hmin : ∀ j, j < f → a[j]? ≠ some item) :
    ∀ (n : Nat) (low high : Int), (high - low + 1).toNat ≤ n →
      0 ≤ low → low ≤ (f : Int) → (f : Int) ≤ high → high ≤ (a.length : Int) →
      first_index a low high item = some (f : Int) := by
  have hflen : f < a.length := (List.getElem?_eq_some.mp hf).1
  intro n
  induction n with
  | zero => intro low high hm h0 h1 h2 h3; omega
  | succ n ih =>
    intro low high hm h0 h1 h2 h3
    have hlh : low ≤ high := le_trans h1 h2
    rw [first_index, if_pos hlh]
    generalize hmiddef : low + (high - low) / 2 = mid
    have hm1 : low ≤ mid := by omega
    have hm2 : mid ≤ high := by omega
    have hm0 : 0 ≤ mid := le_trans h0 hm1
    have hmidnat : mid.toNat < a.length := by omega
    have hv : a[mid.toNat]? = some a[mid.toNat] := List.getElem?_eq_getElem hmidnat
    have hpm : pyIdx a mid = some a[mid.toNat] := by
      rw [pyIdx_nonneg a mid hm0]; exact hv
    rcases lt_trichotomy (a[mid.toNat]) item with hvi | hvi | hvi
    · -- item > a[mid]: recurse right
      have hfmid : (mid : Int) < (f : Int) := by
        by_contra hc
        push_neg at hc
        have : item ≤ a[mid.toNat] := sorted_get_le a hs (i := f) (j := mid.toNat) (by omega) hf hv
        omega
      have hrec : first_index a (mid + 1) high item = some (f : Int) :=
        ih (mid + 1) high (by omega) (by omega) (by omega) h2 h3
      by_cases hm0eq : mid = 0
      · simp only [if_pos hm0eq, hpm]
        split
        · rename_i hcond; exact absurd hcond.2 (by omega)
        · exact hrec
      · have hprevlt : (mid - 1).toNat < a.length := by omega
        have hprev : pyIdx a (mid - 1) = some a[(mid - 1).toNat] := by
          rw [pyIdx_nonneg a _ (by omega)]
          exact List.getElem?_eq_getElem hprevlt
        simp only [if_neg hm0eq, hprev, Option.map_some', hpm]
        split
        · rename_i hcond; exact absurd hcond.2 (by omega)
        · exact hrec
    · -- a[mid] = item
      by_cases hm0eq : mid = 0
      · have hfeq : (f : Int) = mid := by
          rcases Nat.eq_zero_or_pos f with h | h
          · omega
          · exfalso
            exact hmin 0 h (by rw [show (0 : Nat) = mid.toNat by omega, hv, hvi])
        simp only [if_pos hm0eq, hpm]
        split
        · exact congrArg some hfeq.symm
        · rename_i hcond; exact absurd ⟨trivial, hvi⟩ hcond
      · have hprevlt : (mid - 1).toNat < a.length := by omega
        have hprev : pyIdx a (mid - 1) = some a[(mid - 1).toNat] := by
          rw [pyIdx_nonneg a _ (by omega)]
          exact List.getElem?_eq_getElem hprevlt
        simp only [if_neg hm0eq, hprev, Option.map_some', hpm]
        by_cases hb : item > a[(mid - 1).toNat]
        · have hfeq : (f : Int) = mid := by
            rcases lt_trichotomy (f : Int) mid with h | h | h
            · exfalso
              have : item ≤ a[(mid - 1).toNat] :=
                sorted_get_le a hs (i := f) (j := (mid - 1).toNat) (by omega) hf
                  (List.getElem?_eq_getElem hprevlt)
              omega
            · exact h
            · exfalso
              exact hmin mid.toNat (by omega) (by rw [hv, hvi])
          split
          · exact congrArg some hfeq.symm
          · rename_i hcond; exact absurd ⟨decide_eq_true hb, hvi⟩ hcond
        · have hprevval : a[(mid - 1).toNat] = item := by
            have h1' : a[(mid - 1).toNat] ≤ a[mid.toNat] :=
              sorted_get_le a hs (i := (mid - 1).toNat) (j := mid.toNat) (by omega)
                (List.getElem?_eq_getElem hprevlt) hv
            omega
          have hfle : (f : Int) ≤ mid - 1 := by
            by_contra hc
            push_neg at hc
            exact hmin (mid - 1).toNat (by omega)
              (by rw [List.getElem?_eq_getElem hprevlt, hprevval])
          have hrec : first_index a low (mid - 1) item = some (f : Int) :=
            ih low (mid - 1) (by omega) h0 h1 hfle (by omega)
          split
          · rename_i hcond; exact absurd (of_decide_eq_true hcond.1) hb
          · (try rw [if_neg (show ¬(item > a[mid.toNat]) by omega)]); exact hrec
    · -- item < a[mid]: recurse left
      have hfmid : (f : Int) < mid := by
        rcases lt_trichotomy (f : Int) mid with h | h | h
        · exact h
        · exfalso
          have hfv := hf
          rw [show f = mid.toNat by omega, hv] at hfv
          have := Option.some.inj hfv
          omega
        · exfalso
          have : a[mid.toNat] ≤ item := sorted_get_le a hs (i := mid.toNat) (j := f) (by omega) hv hf
          omega
      have hrec : first_index a low (mid - 1) item = some (f : Int) :=
        ih low (mid - 1) (by omega) h0 h1 (by omega) (by omega)
      by_cases hm0eq : mid = 0
      · simp only [if_pos hm0eq, hpm]
        split
        · rename_i hcond; exact absurd hcond.2 (by omega)
        · (try rw [if_neg (show ¬(item > a[mid.toNat]) by omega)]); exact hrec
      · have hprevlt : (mid - 1).toNat < a.length := by omega
        have hprev : pyIdx a (mid - 1) = some a[(mid - 1).toNat] := by
          rw [pyIdx_nonneg a _ (by omega)]
          exact List.getElem?_eq_getElem hprevlt
        simp only [if_neg hm0eq, hprev, Option.map_some', hpm]
        split
        · rename_i hcond; exact absurd hcond.2 (by omega)
        · (try rw [if_neg (show ¬(item > a[mid.toNat]) by omega)]); exact hrec

theorem last_index_found (a : List Int) (item : Int) (l : Nat)
    (hs : List.Pairwise (· ≤ ·) a)
    (hl : a[l]? = some item) (hmax : ∀ j, l < j → a[j]? ≠ some item) :
    ∀ (n : Nat) (low high : Int), (high - low + 1).toNat ≤ n →
      0 ≤ low → low ≤ (l : Int) → (l : Int) ≤ high → high ≤ (a.length : Int) →
      last_index a low high item = some (l : Int) := by
  have hllen : l < a.length := (List.getElem?_eq_some.mp hl).1
  intro n
  induction n with
  | zero => intro low high hm h0 h1 h2 h3; omega
  | succ n ih =>
    intro low high hm h0 h1 h2 h3
    have hlh : low ≤ high := le_trans h1 h2
    rw [last_index, if_pos hlh]
    generalize hmiddef : low + (high - low) / 2 = mid
    have hm1 : low ≤ mid := by omega
    have hm2 : mid ≤ high := by omega
    have hm0 : 0 ≤ mid := le_trans h0 hm1
    have hmidnat : mid.toNat < a.length := by omega
    have hv : a[mid.toNat]? = some a[mid.toNat] := List.getElem?_eq_getElem hmidnat
    have hpm : pyIdx a mid = some a[mid.toNat] := by
      rw [pyIdx_nonneg a mid hm0]; exact hv
    rcases lt_trichotomy (a[mid.toNat]) item with hvi | hvi | hvi
    · -- a[mid] < item: the last occurrence is to the right
      have hlmid : (mid : Int) < (l : Int) := by
        by_contra hc
        push_neg at hc
        have : item ≤ a[mid.toNat] := sorted_get_le a hs (i := l) (j := mid.toNat) (by omega) hl hv
        omega
      have hrec : last_index a (mid + 1) high item = some (l : Int) :=
        ih (mid + 1) high (by omega) (by omega) (by omega) h2 h3
      by_cases hmlast : mid = (a.length : Int) - 1
      · simp only [if_pos hmlast, hpm]
        split
        · rename_i hcond; exact absurd hcond.2 (by omega)
        · (try rw [if_neg (show ¬(item < a[mid.toNat]) by omega)]); exact hrec
      · have hnextlt : (mid + 1).toNat < a.length := by omega
        have hnext : pyIdx a (mid + 1) = some a[(mid + 1).toNat] := by
          rw [pyIdx_nonneg a _ (by omega)]
          exact List.getElem?_eq_getElem hnextlt
        simp only [if_neg hmlast, hnext, Option.map_some', hpm]
        split
        · rename_i hcond; exact absurd hcond.2 (by omega)
        · (try rw [if_neg (show ¬(item < a[mid.toNat]) by omega)]); exact hrec
    · -- a[mid] = item
      by_cases hmlast : mid = (a.length : Int) - 1
      · have hfeq : (l : Int) = mid := by
          rcases lt_trichotomy (l : Int) mid with h | h | h
          · exfalso
            exact hmax mid.toNat (by omega) (by rw [hv, hvi])
          · exact h
          · omega
        simp only [if_pos hmlast, hpm]
        split
        · exact congrArg some hfeq.symm
        · rename_i hcond; exact absurd ⟨trivial, hvi⟩ hcond
      · have hnextlt : (mid + 1).toNat < a.length := by omega
        have hnext : pyIdx a (mid + 1) = some a[(mid + 1).toNat] := by
          rw [pyIdx_nonneg a _ (by omega)]
          exact List.getElem?_eq_getElem hnextlt
        simp only [if_neg hmlast, hnext, Option.map_some', hpm]
        by_cases hb : item < a[(mid + 1).toNat]
        · have hfeq : (l : Int) = mid := by
            rcases lt_trichotomy (l : Int) mid with h | h | h
            · exfalso
              exact hmax mid.toNat (by omega) (by rw [hv, hvi])
            · exact h
            · exfalso
              have : a[(mid + 1).toNat] ≤ item :=
                sorted_get_le a hs (i := (mid + 1).toNat) (j := l) (by omega)
                  (List.getElem?_eq_getElem hnextlt) hl
              omega
          split
          · exact congrArg some hfeq.symm
          · rename_i hcond; exact absurd ⟨decide_eq_true hb, hvi⟩ hcond
        · have hnextval : a[(mid + 1).toNat] = item := by
            have h1' : a[mid.toNat] ≤ a[(mid + 1).toNat] :=
              sorted_get_le a hs (i := mid.toNat) (j := (mid + 1).toNat) (by omega)
                hv (List.getElem?_eq_getElem hnextlt)
            omega
          have hlge : (mid : Int) + 1 ≤ (l : Int) := by
            by_contra hc
            push_neg at hc
            exact hmax (mid + 1).toNat (by omega)
              (by rw [List.getElem?_eq_getElem hnextlt, hnextval])
          have hrec : last_index a (mid + 1) high item = some (l : Int) :=
            ih (mid + 1) high (by omega) (by omega) hlge h2 h3
          split
          · rename_i hcond; exact absurd (of_decide_eq_true hcond.1) hb
          · (try rw [if_neg (show ¬(item < a[mid.toNat]) by omega)]); exact hrec
    · -- item < a[mid]: the last occurrence is to the left
      have hlmid : (l : Int) < mid := by
        by_contra hc
        push_neg at hc
        have : a[mid.toNat] ≤ item := sorted_get_le a hs (i := mid.toNat) (j := l) (by omega) hv hl
        omega
      have hrec : last_index a low (mid - 1) item = some (l : Int) :=
        ih low (mid - 1) (by omega) h0 h1 (by omega) (by omega)
      by_cases hmlast : mid = (a.length : Int) - 1
      · simp only [if_pos hmlast, hpm]
        split
        · rename_i hcond; exact absurd hcond.2 (by omega)
        · exact hrec
      · have hnextlt : (mid + 1).toNat < a.length := by omega
        have hnext : pyIdx a (mid + 1) = some a[(mid + 1).toNat] := by
          rw [pyIdx_nonneg a _ (by omega)]
          exact List.getElem?_eq_getElem hnextlt
        simp only [if_neg hmlast, hnext, Option.map_some', hpm]
        split
        · rename_i hcond; exact absurd hcond.2 (by omega)
        · exact hrec

/-- Claim C10: the recursive boundary searches terminate on every input:
running `first_index` / `last_index` with a call budget of one more than
the length of the interval `[low, high]` always reaches a base case (the
fuel-indexed runs return `some` of the fully-recursive result), because
every recursive call strictly shrinks the interval. -/
theorem binary_searches_terminate (a : List Int) (low high item : Int) :
    firstIndexFuel ((high - low + 1).toNat + 1) a low high item
        = some (first_index a low high item) ∧
      lastIndexFuel ((high - low + 1).toNat + 1) a low high item
        = some (last_index a low high item) :=
  ⟨firstIndexFuel_eq _ a low high item (by omega),
   lastIndexFuel_eq _ a low high item (by omega)⟩

/-- Claim C4 (refuting evidence): on the sorted labels array `[0]`,
searching for the absent value `1` with the caller's convention `low = 0`,
`high = len(array)`, both `first_index` and `last_index` raise
`IndexError` (modelled as `none`) instead of returning the sentinel `-1`
that their docstrings and the spec demand for an absent value. -/
theorem boundary_search_crashes_on_absent_above_max :
    first_index [0] 0 1 1 = none ∧ last_index [0] 0 1 1 = none ∧
      (1 : Int) ∉ ([0] : List Int) ∧ List.Pairwise (· ≤ ·) ([0] : List Int) :=
  ⟨first_index_of_fuel (n := 5) (by decide) (by decide),
   last_index_of_fuel (n := 5) (by decide) (by decide),
   by decide, by decide⟩

theorem foldl_mul_eq_prod (x : Int) (xs : List Int) :
    xs.foldl (· * ·) x = (x :: xs).prod := by
  induction xs generalizing x with
  | nil => simp
  | cons y ys ih =>
    rw [List.foldl_cons, ih]
    simp [List.prod_cons, mul_assoc]

theorem pyReduceMul_eq_prod (x : Int) (xs : List Int) :
    pyReduceMul (x :: xs) = some ((x :: xs).prod) := by
  rw [pyReduceMul, foldl_mul_eq_prod]

/-- Claim C7: in the aggregate phase of a round, the recorded
client→server original bits equal the product (not the sum) of all
clients' pre-quantization model sizes, the transferred bits equal the
product of the encoded sizes, and the conserved bits equal original minus
transferred. -/
theorem aggregate_phase_product_accounting (st : ExperimentState)
    (origSizes encSizes : List Int) (h1 : origSizes ≠ []) (h2 : encSizes ≠ []) :
    ∃ st', aggregate_phase_update st origSizes encSizes = some st' ∧
      st'.original_bits_from_clients = BitsField.vint origSizes.prod ∧
      st'.transferred_bits_from_clients = BitsField.vint encSizes.prod ∧
      st'.conserved_bits_from_clients = BitsField.vint (origSizes.prod - encSizes.prod) := by
  obtain ⟨x, xs, rfl⟩ := List.exists_cons_of_ne_nil h1
  obtain ⟨y, ys, rfl⟩ := List.exists_cons_of_ne_nil h2
  unfold aggregate_phase_update
  rw [pyReduceMul_eq_prod, pyReduceMul_eq_prod]
  exact ⟨_, rfl, rfl, rfl, rfl⟩

/-- Witness for claim C7 at concrete per-client sizes. -/
theorem aggregate_phase_product_accounting_witness :
    (([8, 8] : List Int) ≠ [] ∧ ([2, 2] : List Int) ≠ []) ∧
    (∃ st', aggregate_phase_update initial_experiment_state [8, 8] [2, 2] = some st' ∧
      st'.original_bits_from_clients = BitsField.vint (([8, 8] : List Int)).prod ∧
      st'.transferred_bits_from_clients = BitsField.vint (([2, 2] : List Int)).prod ∧
      st'.conserved_bits_from_clients
        = BitsField.vint ((([8, 8] : List Int)).prod - (([2, 2] : List Int)).prod)) :=
  ⟨⟨by decide, by decide⟩,
   aggregate_phase_product_accounting initial_experiment_state [8, 8] [2, 2]
     (by decide) (by decide)⟩

theorem int8_sum_le (m : List TensorMeta) :
    ((quantize_int8_meta m).map (fun t => t.numel * t.dtype.bits)).sum
      ≤ (m.map (fun t => t.numel * t.dtype.bits)).sum := by
  induction m with
  | nil => simp [quantize_int8_meta]
  | cons t ts ih =>
    simp only [quantize_int8_meta, List.map_cons, List.map_map, List.sum_cons] at ih ⊢
    have hbits : (8 : Nat) ≤ t.dtype.bits := by cases t.dtype <;> simp [DType.bits]
    have : t.numel * DType.bits DType.int8 ≤ t.numel * t.dtype.bits := by
      apply Nat.mul_le_mul_left
      simpa [DType.bits] using hbits
    omega

theorem int8_sum_lt (m : List TensorMeta)
    (hpos : ∃ t ∈ m, 0 < t.numel) (hfloat : ∀ t ∈ m, t.dtype = DType.float32) :
    ((quantize_int8_meta m).map (fun t => t.numel * t.dtype.bits)).sum
      < (m.map (fun t => t.numel * t.dtype.bits)).sum := by
  induction m with
  | nil => simp at hpos
  | cons t ts ih =>
    simp only [quantize_int8_meta, List.map_cons, List.map_map, List.sum_cons]
    have hdt : t.dtype = DType.float32 := hfloat t (by simp)
    rcases hpos with ⟨u, hu, hupos⟩
    rcases List.mem_cons.mp hu with rfl | hu
    · have hhead : u.numel * DType.bits DType.int8 < u.numel * u.dtype.bits := by
        rw [hdt]
        simp only [DType.bits]
        omega
      have htail := int8_sum_le ts
      simp only [quantize_int8_meta, List.map_map] at htail
      omega
    · have hhead : t.numel * DType.bits DType.int8 ≤ t.numel * t.dtype.bits := by
        rw [hdt]
        simp only [DType.bits]
        omega
      have htail := ih ⟨u, hu, hupos⟩ (fun v hv => hfloat v (List.mem_cons_of_mem _ hv))
      simp only [quantize_int8_meta, List.map_map] at htail
      omega

/-- Claim C9: the bit-size measurement is deterministic (two applications
to the same unmodified mapping agree) and strictly monotone under int8
quantization whenever the mapping holds at least one element whose width
the scheme reduces (here: a full-precision float32 mapping with a
non-empty tensor). -/
theorem size_in_bits_deterministic_and_monotone (m : List TensorMeta) (overheadBytes : Nat)
    (hfloat : ∀ t ∈ m, t.dtype = DType.float32)
    (hpos : ∃ t ∈ m, 0 < t.numel) :
    size_in_bits m overheadBytes = size_in_bits m overheadBytes ∧
      size_in_bits (quantize_int8_meta m) overheadBytes < size_in_bits m overheadBytes := by
  refine ⟨rfl, ?_⟩
  unfold size_in_bits
  have := int8_sum_lt m hpos hfloat
  omega

/-- Witness for claim C9 on a one-tensor float32 mapping. -/
theorem size_in_bits_deterministic_and_monotone_witness :
    ((∀ t ∈ [TensorMeta.mk DType.float32 3], t.dtype = DType.float32) ∧
      (∃ t ∈ [TensorMeta.mk DType.float32 3], 0 < t.numel)) ∧
    (size_in_bits [TensorMeta.mk DType.float32 3] 2
        = size_in_bits [TensorMeta.mk DType.float32 3] 2 ∧
      size_in_bits (quantize_int8_meta [TensorMeta.mk DType.float32 3]) 2
        < size_in_bits [TensorMeta.mk DType.float32 3] 2) :=
  ⟨⟨by decide, by decide⟩,
   size_in_bits_deterministic_and_monotone [TensorMeta.mk DType.float32 3] 2
     (by decide) (by decide)⟩

/-- Claim C1 (refuting evidence): with 5 clients, after round 1 the
server-direction bit lists have gained no entry (the broadcast block is
skipped) while `original_bits_from_clients` has been overwritten from the
empty list to a plain integer; after round 2 the server-direction lists
have gained five entries (one per client), not one per round — so the
record does not grow exactly one entry per list per round and previously
recorded values are overwritten. -/
theorem experiment_state_not_append_only :
    (round_update initial_experiment_state 1 5 8 2 [8, 8, 8, 8, 8] [2, 2, 2, 2, 2] 0).map
        (fun st => (st.original_bits_from_server.length, st.test_accuracies.length,
          st.original_bits_from_clients))
      = some (0, 1, BitsField.vint 32768) ∧
    ((round_update initial_experiment_state 1 5 8 2 [8, 8, 8, 8, 8] [2, 2, 2, 2, 2] 0).bind
        (fun st => round_update st 2 5 8 2 [8, 8, 8, 8, 8] [2, 2, 2, 2, 2] 0)).map
        (fun st => (st.original_bits_from_server.length,
          st.original_bits_from_clients, st.test_accuracies.length))
      = some (5, BitsField.vint 32768, 2) := by decide

/-- Claim C8 (counterexample): with 5 samples and 2 clients the IID split
does not drop the remainder indices: the chunk lengths `[2, 2]` do not
sum to 5, so `random_split` raises `ValueError` (modelled as `none`) and
no shards are produced at all, while the claim requires shards whose
union has `5 - 5 % 2 = 4` elements. -/
theorem iid_split_crashes_on_remainder :
    iid_client_datasets 2 [0, 1, 2, 3, 4] = none := by decide

theorem splitChunks_length (lens : List Nat) :
    ∀ perm : List Nat, (splitChunks perm lens).length = lens.length := by
  induction lens with
  | nil => intro perm; rfl
  | cons n ns ih => intro perm; simp [splitChunks, ih]

theorem splitChunks_flatten (lens : List Nat) :
    ∀ perm : List Nat, (splitChunks perm lens).flatten = perm.take lens.sum := by
  induction lens with
  | nil => intro perm; simp [splitChunks]
  | cons n ns ih =>
    intro perm
    simp only [splitChunks, List.flatten_cons, ih, List.sum_cons]
    rw [List.take_add]

theorem splitChunks_replicate_mem (c k : Nat) :
    ∀ perm : List Nat, k * c ≤ perm.length →
      ∀ s ∈ splitChunks perm (List.replicate k c), s.length = c := by
  induction k with
  | zero => intro perm _ s hs; simp [splitChunks] at hs
  | succ k ih =>
    intro perm hlen s hs
    simp only [List.replicate_succ, splitChunks, List.mem_cons] at hs
    have hexp : (k + 1) * c = k * c + c := Nat.succ_mul k c
    rcases hs with rfl | hs
    · rw [List.length_take]
      omega
    · refine ih (perm.drop c) ?_ s hs
      rw [List.length_drop]
      omega

/-- Claim C8 (amended): for an IID-mode partition call whose client count
divides the sample count (otherwise the call fails, see the
counterexample), the k shards partition the whole index set: one shard
per client, each of exactly `n / k = ⌊n / k⌋` indices, jointly a
permutation of all `n` indices (so each index lies in exactly one shard),
and the union's size is `n - n % k = n`. -/
theorem iid_partition_correct (num_clients n : Nat) (perm : List Nat)
    (hperm : perm.Perm (List.range n)) (hk : 0 < num_clients) (hdvd : num_clients ∣ n) :
    ∃ shards, iid_client_datasets num_clients perm = some shards ∧
      shards.length = num_clients ∧
      (∀ s ∈ shards, s.length = n / num_clients) ∧
      shards.flatten.Perm (List.range n) ∧
      shards.flatten.toFinset.card = n - n % num_clients := by
  have hlen : perm.length = n := by rw [hperm.length_eq, List.length_range]
  have hsum : (List.replicate num_clients (perm.length / num_clients)).sum = perm.length := by
    rw [List.sum_replicate, smul_eq_mul, hlen]
    exact Nat.mul_div_cancel' hdvd
  have hmod : n % num_clients = 0 := by
    obtain ⟨c, rfl⟩ := hdvd
    exact Nat.mul_mod_right _ _
  unfold iid_client_datasets random_split
  rw [if_pos hsum]
  refine ⟨_, rfl, ?_, ?_, ?_, ?_⟩
  · rw [splitChunks_length, List.length_replicate]
  · intro s hs
    have := splitChunks_replicate_mem (perm.length / num_clients) num_clients perm
      (by rw [Nat.mul_div_cancel' (hlen ▸ hdvd)]) s hs
    rw [this, hlen]
  · rw [splitChunks_flatten, hsum, List.take_length]
    exact hperm
  · rw [splitChunks_flatten, hsum, List.take_length,
      List.toFinset_eq_of_perm _ _ hperm,
      List.toFinset_card_of_nodup (List.nodup_range n), List.length_range, hmod]
    omega

/-- Witness for (amended) claim C8: 2 clients over 4 samples, with a
concrete permutation draw. -/
theorem iid_partition_correct_witness :
    (([1, 0, 3, 2] : List Nat).Perm (List.range 4) ∧ 0 < 2 ∧ 2 ∣ 4) ∧
    (∃ shards, iid_client_datasets 2 [1, 0, 3, 2] = some shards ∧
      shards.length = 2 ∧
      (∀ s ∈ shards, s.length = 4 / 2) ∧
      shards.flatten.Perm (List.range 4) ∧
      shards.flatten.toFinset.card = 4 - 4 % 2) :=
  ⟨⟨by decide, by decide, by decide⟩,
   iid_partition_correct 2 4 [1, 0, 3, 2] (by decide) (by decide) (by decide)⟩

theorem lookupE_ok_iff (k : String) (d : ParamMap) (t : Tensor) :
    lookupE k d = Except.ok t ↔ d.lookup k = some t := by
  unfold lookupE
  cases h : d.lookup k with
  | none => simp
  | some u => simp

theorem exceptMapM_forall2 {α β ε : Type} (f : α → Except ε β) :
    ∀ (l : List α) (out : List β), l.mapM f = Except.ok out →
      List.Forall₂ (fun x y => f x = Except.ok y) l out := by
  intro l
  induction l with
  | nil =>
    intro out h
    rw [List.mapM_nil] at h
    cases h
    exact List.Forall₂.nil
  | cons x xs ih =>
    intro out h
    rw [List.mapM_cons] at h
    cases hfx : f x with
    | error e => rw [hfx] at h; exact Except.noConfusion h
    | ok y =>
      rw [hfx] at h
      cases hxs : xs.mapM f with
      | error e => rw [hxs] at h; exact Except.noConfusion h
      | ok ys =>
        rw [hxs] at h
        cases Except.ok.inj h
        exact List.Forall₂.cons hfx (ih ys hxs)

theorem exceptMapM_of_forall2 {α β ε : Type} (f : α → Except ε β)
    {l : List α} {out : List β}
    (h : List.Forall₂ (fun x y => f x = Except.ok y) l out) :
    l.mapM f = Except.ok out := by
  induction h with
  | nil => rfl
  | cons hxy hrest ih =>
    rw [List.mapM_cons]
    rename_i x y l' out'
    rw [hxy, ih]
    rfl

theorem exceptMapM_ok_exists {α β ε : Type} (f : α → Except ε β) :
    ∀ l : List α, (∀ x ∈ l, ∃ y, f x = Except.ok y) → ∃ out, l.mapM f = Except.ok out := by
  intro l
  induction l with
  | nil => intro _; exact ⟨[], rfl⟩
  | cons x xs ih =>
    intro h
    obtain ⟨y, hy⟩ := h x (by simp)
    obtain ⟨ys, hys⟩ := ih (fun z hz => h z (by simp [hz]))
    refine ⟨y :: ys, ?_⟩
    rw [List.mapM_cons, hy, hys]
    rfl

theorem forall2_mem_left {α β : Type} {R : α → β → Prop} :
    ∀ {l : List α} {out : List β}, List.Forall₂ R l out → ∀ x ∈ l, ∃ y ∈ out, R x y := by
  intro l out h
  induction h with
  | nil => intro x hx; cases hx
  | cons hxy hrest ih =>
    intro z hz
    rcases List.mem_cons.mp hz with rfl | hz
    · exact ⟨_, by simp, hxy⟩
    · obtain ⟨y, hy, hr⟩ := ih z hz
      exact ⟨y, by simp [hy], hr⟩

theorem forall2_mem_right {α β : Type} {R : α → β → Prop} :
    ∀ {l : List α} {out : List β}, List.Forall₂ R l out → ∀ y ∈ out, ∃ x ∈ l, R x y := by
  intro l out h
  induction h with
  | nil => intro y hy; cases hy
  | cons hxy hrest ih =>
    intro z hz
    rcases List.mem_cons.mp hz with rfl | hz
    · exact ⟨_, by simp, hxy⟩
    · obtain ⟨x, hx, hr⟩ := ih z hz
      exact ⟨x, by simp [hx], hr⟩

theorem averageAtKey_ok_iff (d0 : ParamMap) (rest : List ParamMap) (k : String) :
    (∃ v, averageAtKey (d0 :: rest) k = Except.ok v) ↔
      ∃ t0, d0.lookup k = some t0 ∧
        ∀ d ∈ d0 :: rest, ∃ t, d.lookup k = some t ∧ t.shape = t0.shape := by
  constructor
  · rintro ⟨v, hv⟩
    unfold averageAtKey at hv
    cases hm : (d0 :: rest).mapM (lookupE k) with
    | error e =>
      rw [hm] at hv
      exact Except.noConfusion hv
    | ok ts =>
      simp only [hm] at hv
      have hf2 := exceptMapM_forall2 (lookupE k) _ _ hm
      cases hf2 with
      | cons h0 hrest =>
        rename_i t0 ts'
        have ht0 : d0.lookup k = some t0 := (lookupE_ok_iff k d0 t0).mp h0
        by_cases hsh : ts'.all (fun u => decide (u.shape = t0.shape))
        · refine ⟨t0, ht0, ?_⟩
          intro d hd
          rcases List.mem_cons.mp hd with rfl | hd
          · exact ⟨t0, ht0, rfl⟩
          · obtain ⟨t, ht, hlk⟩ := forall2_mem_left hrest d hd
            refine ⟨t, (lookupE_ok_iff k d t).mp hlk, ?_⟩
            exact of_decide_eq_true (List.all_eq_true.mp hsh t ht)
        · have hcs : catSumTensors (t0 :: ts') = Except.error AggError.ShapeMismatch := by
            simp only [catSumTensors]
            rw [if_neg hsh]
          rw [hcs] at hv
          exact Except.noConfusion hv
  · rintro ⟨t0, ht0, hall⟩
    have hex : ∀ d ∈ d0 :: rest, ∃ t, lookupE k d = Except.ok t := by
      intro d hd
      obtain ⟨t, ht, -⟩ := hall d hd
      exact ⟨t, (lookupE_ok_iff k d t).mpr ht⟩
    obtain ⟨ts, hts⟩ := exceptMapM_ok_exists (lookupE k) _ hex
    have hf2 := exceptMapM_forall2 (lookupE k) _ _ hts
    cases hf2 with
    | cons h0 hrest =>
      rename_i t0' ts'
      have ht0' : t0' = t0 := by
        have h := (lookupE_ok_iff k d0 t0').mp h0
        rw [ht0] at h
        exact (Option.some.inj h).symm
      have hsh : ts'.all (fun u => decide (u.shape = t0'.shape)) = true := by
        rw [List.all_eq_true]
        intro u hu
        obtain ⟨d, hd, hlk⟩ := forall2_mem_right hrest u hu
        have hdl : d.lookup k = some u := (lookupE_ok_iff k d u).mp hlk
        obtain ⟨t, ht, hshape⟩ := hall d (List.mem_cons_of_mem _ hd)
        rw [hdl] at ht
        cases Option.some.inj ht
        rw [ht0']
        exact decide_eq_true hshape
      have hcs : catSumTensors (t0' :: ts')
          = Except.ok (ts'.foldl
              (fun acc u => ⟨acc.shape, List.zipWith (· + ·) acc.data u.data⟩) t0') := by
        simp only [catSumTensors]
        rw [if_pos hsh]
      refine ⟨(k, divTensor (ts'.foldl
        (fun acc u => ⟨acc.shape, List.zipWith (· + ·) acc.data u.data⟩) t0')
        (d0 :: rest).length), ?_⟩
      unfold averageAtKey
      simp only [hts, hcs]

/-- Claim C2 (amended): the Aggregator fails with `EmptyInput` exactly on
the empty sequence, and on a non-empty sequence it succeeds if and only
if every input mapping contains every key of the FIRST mapping with a
tensor of the first mapping's shape at that key.  Pairwise compatibility
is sufficient but not necessary: keys outside the first mapping are
silently ignored (see the counterexample). -/
theorem average_client_models_success_iff (d0 : ParamMap) (rest : List ParamMap) :
    average_client_models [] = Except.error AggError.EmptyInput ∧
    ((∃ m, average_client_models (d0 :: rest) = Except.ok m) ↔
      ∀ k ∈ d0.map Prod.fst, ∃ t0, d0.lookup k = some t0 ∧
        ∀ d ∈ d0 :: rest, ∃ t, d.lookup k = some t ∧ t.shape = t0.shape) := by
  refine ⟨rfl, ?_⟩
  constructor
  · rintro ⟨m, hm⟩
    intro k hk2
    have hm' : (d0.map Prod.fst).mapM (averageAtKey (d0 :: rest)) = Except.ok m := hm
    have hf2 := exceptMapM_forall2 _ _ _ hm'
    obtain ⟨v, _, hok⟩ := forall2_mem_left hf2 k hk2
    exact (averageAtKey_ok_iff d0 rest k).mp ⟨v, hok⟩
  · intro hall
    have h := exceptMapM_ok_exists (averageAtKey (d0 :: rest)) (d0.map Prod.fst)
      (fun k hk2 => (averageAtKey_ok_iff d0 rest k).mpr (hall k hk2))
    obtain ⟨m, hm⟩ := h
    exact ⟨m, hm⟩

/-- Claim C2 (counterexample): two parameter mappings that are NOT
compatible — the second carries an extra key `"b"` — are accepted by the
Aggregator: the average succeeds (over the first mapping's keys) instead
of failing with a `ShapeMismatch` error. -/
theorem average_accepts_incompatible_mappings :
    average_client_models
        [[("a", Tensor.mk [1] [1])], [("a", Tensor.mk [1] [2]), ("b", Tensor.mk [1] [3])]]
      = Except.ok [("a", Tensor.mk [1] [3 / 2])] ∧
    ¬ ([[("a", Tensor.mk [1] [1])], [("a", Tensor.mk [1] [2]), ("b", Tensor.mk [1] [3])]]
        : List ParamMap).Pairwise compatible := by
  constructor
  · show (List.mapM (averageAtKey _) _) = _
    rw [show List.map Prod.fst [("a", Tensor.mk [1] [1])] = ["a"] from rfl,
      List.mapM_cons, List.mapM_nil]
    have h1 : averageAtKey
        [[("a", Tensor.mk [1] [1])], [("a", Tensor.mk [1] [2]), ("b", Tensor.mk [1] [3])]] "a"
        = Except.ok ("a", Tensor.mk [1] [3 / 2]) := by
      simp only [averageAtKey, lookupE, catSumTensors, divTensor, List.mapM_cons,
        List.mapM_nil, List.lookup]
      norm_num
      show Except.ok ("a", Tensor.mk [1] [((1 : ℚ) + 2) / 2])
          = Except.ok ("a", Tensor.mk [1] [3 / 2])
      norm_num
    rw [h1]
    rfl
  · intro h
    have hcomp := (List.pairwise_cons.mp h).1
      [("a", Tensor.mk [1] [2]), ("b", Tensor.mk [1] [3])] (List.mem_singleton_self _)
    exact absurd hcomp.1 (by decide)

theorem lookup_some_of_mem_keys {d : ParamMap} {k : String} (h : k ∈ d.map Prod.fst) :
    ∃ t, d.lookup k = some t := by
  induction d with
  | nil => cases h
  | cons p ds ih =>
    obtain ⟨k', t'⟩ := p
    simp only [List.lookup]
    cases hbeq : k == k'
    · simp only [hbeq]
      apply ih
      have hne : k ≠ k' := beq_eq_false_iff_ne.mp hbeq
      rcases List.mem_cons.mp (by simpa only [List.map_cons] using h) with h' | h'
      · exact absurd h' hne
      · exact h'
    · exact ⟨t', by simp only [hbeq]⟩

theorem lookup_mem {d : ParamMap} {k : String} {t : Tensor} (h : d.lookup k = some t) :
    (k, t) ∈ d := by
  induction d with
  | nil => cases h
  | cons p ds ih =>
    obtain ⟨k', t'⟩ := p
    simp only [List.lookup] at h
    cases hbeq : k == k' <;> simp only [hbeq] at h
    · exact List.mem_cons_of_mem _ (ih h)
    · cases Option.some.inj h
      have hke : k = k' := eq_of_beq hbeq
      subst hke
      exact List.mem_cons_self _ _

theorem getD_zipWith_add (a b : List ℚ) (j : Nat) (ha : j < a.length) (hb : j < b.length) :
    (List.zipWith (· + ·) a b).getD j 0 = a.getD j 0 + b.getD j 0 := by
  rw [List.getD_eq_getElem?_getD, List.getD_eq_getElem?_getD, List.getD_eq_getElem?_getD,
    List.getElem?_zipWith, List.getElem?_eq_getElem ha, List.getElem?_eq_getElem hb]
  rfl

theorem foldl_zipWith_length (ds : List (List ℚ)) :
    ∀ d : List ℚ, (∀ e ∈ ds, e.length = d.length) →
      (ds.foldl (List.zipWith (· + ·)) d).length = d.length := by
  induction ds with
  | nil => intro d _; rfl
  | cons e es ih =>
    intro d h
    rw [List.foldl_cons]
    have he : e.length = d.length := h e (by simp)
    have hz : (List.zipWith (· + ·) d e).length = d.length := by
      rw [List.length_zipWith]
      omega
    rw [ih _ (fun u hu => by rw [h u (by simp [hu]), ← hz]), hz]

theorem foldl_zipWith_getD (ds : List (List ℚ)) :
    ∀ d : List ℚ, (∀ e ∈ ds, e.length = d.length) → ∀ j, j < d.length →
      (ds.foldl (List.zipWith (· + ·)) d).getD j 0
        = d.getD j 0 + (ds.map (fun e => e.getD j 0)).sum := by
  induction ds with
  | nil => intro d _ j _; simp
  | cons e es ih =>
    intro d h j hj
    rw [List.foldl_cons]
    have he : e.length = d.length := h e (by simp)
    have hz : (List.zipWith (· + ·) d e).length = d.length := by
      rw [List.length_zipWith]
      omega
    rw [ih _ (fun u hu => by rw [h u (by simp [hu]), ← hz]) j (by omega),
      getD_zipWith_add d e j hj (by omega)]
    simp [add_assoc]

theorem catSum_foldl_spec (ts' : List Tensor) :
    ∀ t : Tensor,
      (ts'.foldl (fun acc u => ⟨acc.shape, List.zipWith (· + ·) acc.data u.data⟩) t).shape
          = t.shape ∧
        (ts'.foldl (fun acc u => ⟨acc.shape, List.zipWith (· + ·) acc.data u.data⟩) t).data
          = (ts'.map Tensor.data).foldl (List.zipWith (· + ·)) t.data := by
  induction ts' with
  | nil => intro t; exact ⟨rfl, rfl⟩
  | cons u us ih =>
    intro t
    rw [List.foldl_cons, List.map_cons, List.foldl_cons]
    exact ih ⟨t.shape, List.zipWith (· + ·) t.data u.data⟩

theorem map_lookup_eq_of_forall2 {k : String} {j : Nat} :
    ∀ {l : List ParamMap} {ts : List Tensor},
      List.Forall₂ (fun d t => d.lookup k = some t) l ts →
      l.map (fun d => ((d.lookup k).getD (Tensor.mk [] [])).data.getD j 0)
        = ts.map (fun t => t.data.getD j 0) := by
  intro l ts h
  induction h with
  | nil => rfl
  | cons hdt hrest ih =>
    rw [List.map_cons, List.map_cons, ih, hdt]
    rfl

theorem getD_map_div (l : List ℚ) (n : Nat) (j : Nat) (h : j < l.length) :
    (l.map (· / (n : ℚ))).getD j 0 = l.getD j 0 / (n : ℚ) := by
  rw [List.getD_eq_getElem?_getD, List.getD_eq_getElem?_getD, List.getElem?_map,
    List.getElem?_eq_getElem h]
  rfl

theorem averageAtKey_fst (dicts : List ParamMap) (k : String) (v : String × Tensor)
    (h : averageAtKey dicts k = Except.ok v) : v.1 = k := by
  unfold averageAtKey at h
  cases hm : dicts.mapM (lookupE k) with
  | error e => rw [hm] at h; exact Except.noConfusion h
  | ok ts =>
    simp only [hm] at h
    cases hcs : catSumTensors ts with
    | error e => rw [hcs] at h; exact Except.noConfusion h
    | ok s =>
      rw [hcs] at h
      cases Except.ok.inj h
      rfl

theorem mapM_keys_lookup (g : String → Except AggError (String × Tensor)) :
    ∀ (keys : List String) (m : ParamMap), keys.mapM g = Except.ok m →
      (∀ k v, g k = Except.ok v → v.1 = k) →
      m.map Prod.fst = keys ∧
      (keys.Nodup → ∀ k ∈ keys, ∃ t, m.lookup k = some t ∧ g k = Except.ok (k, t)) := by
  intro keys
  induction keys with
  | nil =>
    intro m hm _
    rw [List.mapM_nil] at hm
    cases hm
    exact ⟨rfl, fun _ k hk => absurd hk (List.not_mem_nil k)⟩
  | cons k0 ks ih =>
    intro m hm hfst
    rw [List.mapM_cons] at hm
    cases hg0 : g k0 with
    | error e => rw [hg0] at hm; exact Except.noConfusion hm
    | ok v0 =>
      rw [hg0] at hm
      cases hgs : ks.mapM g with
      | error e => rw [hgs] at hm; exact Except.noConfusion hm
      | ok m' =>
        rw [hgs] at hm
        cases Except.ok.inj hm
        obtain ⟨hkeys, hlk⟩ := ih m' hgs hfst
        have hv0 : v0.1 = k0 := hfst k0 v0 hg0
        obtain ⟨k0', t0⟩ := v0
        cases hv0
        constructor
        · rw [List.map_cons, hkeys]
        · intro hnd k hk
          have hnd' := List.nodup_cons.mp hnd
          rcases List.mem_cons.mp hk with rfl | hk
          · exact ⟨t0, by simp [List.lookup], by rw [hg0]⟩
          · obtain ⟨t, ht, hgk⟩ := hlk hnd'.2 k hk
            refine ⟨t, ?_, hgk⟩
            have hke : k ≠ k0' := fun hc => hnd'.1 (hc ▸ hk)
            simp only [List.lookup, beq_eq_false_iff_ne.mpr hke]
            exact ht

/-- Claim C3: for every non-empty sequence of pairwise-compatible
parameter mappings (with the dict key-uniqueness and tensor
well-formedness invariants that `dict(model.named_parameters())`
guarantees), the Aggregator returns a mapping with the same key set in
which, for every key, the output tensor is the element-wise arithmetic
mean — sum divided by the number of inputs — of the input tensors for
that key, with no weighting. -/
theorem average_client_models_is_mean (d0 : ParamMap) (rest : List ParamMap)
    (hpair : (d0 :: rest).Pairwise compatible)
    (hnodup : (d0.map Prod.fst).Nodup)
    (hwf : ∀ d ∈ d0 :: rest, ∀ p ∈ d, p.2.data.length = p.2.shape.prod) :
    ∃ m, average_client_models (d0 :: rest) = Except.ok m ∧
      m.map Prod.fst = d0.map Prod.fst ∧
      ∀ k t0, d0.lookup k = some t0 →
        ∃ t, m.lookup k = some t ∧ t.shape = t0.shape ∧
          t.data.length = t0.data.length ∧
          ∀ j, j < t.data.length → t.data.getD j 0 = meanAt (d0 :: rest) k j := by
  have hcompat : ∀ d ∈ rest, compatible d0 d := (List.pairwise_cons.mp hpair).1
  have hcond : ∀ k ∈ d0.map Prod.fst, ∃ t0, d0.lookup k = some t0 ∧
      ∀ d ∈ d0 :: rest, ∃ t, d.lookup k = some t ∧ t.shape = t0.shape := by
    intro k hk2
    obtain ⟨t0, ht0⟩ := lookup_some_of_mem_keys hk2
    refine ⟨t0, ht0, ?_⟩
    intro d hd
    rcases List.mem_cons.mp hd with rfl | hd
    · exact ⟨t0, ht0, rfl⟩
    · have hc := hcompat d hd
      have hk2' : k ∈ d.map Prod.fst := by
        have hmem : k ∈ (d0.map Prod.fst).toFinset := List.mem_toFinset.mpr hk2
        rw [hc.1] at hmem
        exact List.mem_toFinset.mp hmem
      obtain ⟨t, ht⟩ := lookup_some_of_mem_keys hk2'
      exact ⟨t, ht, (hc.2 (k, t0) (lookup_mem ht0) t ht).symm⟩
  obtain ⟨m, hm⟩ := exceptMapM_ok_exists (averageAtKey (d0 :: rest)) (d0.map Prod.fst)
    (fun k hk2 => (averageAtKey_ok_iff d0 rest k).mpr (hcond k hk2))
  obtain ⟨hkeys, hlk⟩ := mapM_keys_lookup (averageAtKey (d0 :: rest)) (d0.map Prod.fst) m hm
    (fun k v hv => averageAtKey_fst _ k v hv)
  refine ⟨m, hm, hkeys, ?_⟩
  intro k t0 ht0
  have hk2 : k ∈ d0.map Prod.fst := List.mem_map.mpr ⟨(k, t0), lookup_mem ht0, rfl⟩
  obtain ⟨t, hmt, hgk⟩ := hlk hnodup k hk2
  unfold averageAtKey at hgk
  cases hmm : (d0 :: rest).mapM (lookupE k) with
  | error e =>
    rw [hmm] at hgk
    exact Except.noConfusion hgk
  | ok ts =>
    simp only [hmm] at hgk
    have hf2 := exceptMapM_forall2 _ _ _ hmm
    cases hf2 with
    | cons h0 hrest2 =>
      rename_i t0' ts''
      have heq : t0' = t0 := by
        have hh := (lookupE_ok_iff k d0 t0').mp h0
        rw [ht0] at hh
        exact (Option.some.inj hh).symm
      -- shapes of all member tensors equal t0's shape
      have hshapes : ∀ u ∈ ts'', u.shape = t0.shape := by
        intro u hu
        obtain ⟨d, hd, hlkE⟩ := forall2_mem_right hrest2 u hu
        have hdl := (lookupE_ok_iff k d u).mp hlkE
        obtain ⟨t0c, ht0c, hallc⟩ := hcond k hk2
        have ht0ceq : t0c = t0 := by
          rw [ht0] at ht0c
          exact (Option.some.inj ht0c).symm
        obtain ⟨t2, ht2, hsh2⟩ := hallc d (List.mem_cons_of_mem _ hd)
        rw [hdl] at ht2
        cases Option.some.inj ht2
        rw [← ht0ceq]
        exact hsh2
      -- data lengths of all member tensors equal t0's data length
      have hlen0 : t0.data.length = t0.shape.prod := hwf d0 (List.mem_cons_self _ _) _
        (lookup_mem ht0)
      have hlens : ∀ u ∈ ts'', u.data.length = t0.data.length := by
        intro u hu
        obtain ⟨d, hd, hlkE⟩ := forall2_mem_right hrest2 u hu
        have hdl := (lookupE_ok_iff k d u).mp hlkE
        have := hwf d (List.mem_cons_of_mem _ hd) _ (lookup_mem hdl)
        rw [this, hshapes u hu, hlen0]
      have hsh : ts''.all (fun u => decide (u.shape = t0'.shape)) = true := by
        rw [List.all_eq_true]
        intro u hu
        rw [heq]
        exact decide_eq_true (hshapes u hu)
      have hcs : catSumTensors (t0' :: ts'')
          = Except.ok (ts''.foldl
              (fun acc u => ⟨acc.shape, List.zipWith (· + ·) acc.data u.data⟩) t0') := by
        simp only [catSumTensors]
        rw [if_pos hsh]
      rw [hcs] at hgk
      have htval : t = divTensor (ts''.foldl
          (fun acc u => ⟨acc.shape, List.zipWith (· + ·) acc.data u.data⟩) t0')
          (d0 :: rest).length := by
        have hinj := Except.ok.inj hgk
        have := congrArg Prod.snd hinj
        exact this.symm
      obtain ⟨hfs, hfd⟩ := catSum_foldl_spec ts'' t0'
      have hdslen : ∀ e ∈ ts''.map Tensor.data, e.length = t0'.data.length := by
        intro e he
        obtain ⟨u, hu, rfl⟩ := List.mem_map.mp he
        rw [hlens u hu, heq]
      have hfoldlen : (ts''.foldl
          (fun acc u => ⟨acc.shape, List.zipWith (· + ·) acc.data u.data⟩) t0').data.length
          = t0.data.length := by
        rw [hfd, foldl_zipWith_length _ _ hdslen, heq]
      refine ⟨t, hmt, ?_, ?_, ?_⟩
      · rw [htval]
        show (ts''.foldl
          (fun acc u => ⟨acc.shape, List.zipWith (· + ·) acc.data u.data⟩) t0').shape = t0.shape
        rw [hfs, heq]
      · rw [htval]
        show ((ts''.foldl
          (fun acc u => ⟨acc.shape, List.zipWith (· + ·) acc.data u.data⟩) t0').data.map
            (· / ((d0 :: rest).length : ℚ))).length = t0.data.length
        rw [List.length_map, hfoldlen]
      · intro j hj
        have hjlen : j < t0.data.length := by
          rw [htval] at hj
          simpa [divTensor, hfoldlen] using hj
        rw [htval]
        show ((ts''.foldl
          (fun acc u => ⟨acc.shape, List.zipWith (· + ·) acc.data u.data⟩) t0').data.map
            (· / ((d0 :: rest).length : ℚ))).getD j 0 = meanAt (d0 :: rest) k j
        rw [getD_map_div _ _ j (by rw [hfoldlen]; exact hjlen), hfd,
          foldl_zipWith_getD _ _ hdslen j (by rw [heq]; exact hjlen)]
        unfold meanAt
        have hrest3 : List.Forall₂ (fun d u => d.lookup k = some u) rest ts'' :=
          hrest2.imp (fun a b h => (lookupE_ok_iff k a b).mp h)
        rw [List.map_cons, List.sum_cons, ht0,
          map_lookup_eq_of_forall2 hrest3]
        have : (ts''.map Tensor.data).map (fun e => e.getD j 0)
            = ts''.map (fun u => u.data.getD j 0) := by
          rw [List.map_map]
          rfl
        rw [this, heq]
        rfl

theorem compatible_concrete_pair :
    compatible [("a", Tensor.mk [2] [1, 3])] [("a", Tensor.mk [2] [3, 5])] := by
  refine ⟨by decide, ?_⟩
  intro p hp t' ht'
  simp only [List.mem_singleton] at hp
  subst hp
  simp only [List.lookup] at ht'
  rw [show (("a" == "a") : Bool) = true from rfl] at ht'
  cases Option.some.inj ht'
  rfl

theorem pairwise_compatible_concrete :
    ([[("a", Tensor.mk [2] [1, 3])], [("a", Tensor.mk [2] [3, 5])]]
      : List ParamMap).Pairwise compatible :=
  List.pairwise_cons.mpr
    ⟨fun d hd => by rw [List.mem_singleton.mp hd]; exact compatible_concrete_pair,
     List.pairwise_singleton _ _⟩

/-- Witness for claim C3 on two concrete compatible one-key mappings. -/
theorem average_client_models_is_mean_witness :
    (([[("a", Tensor.mk [2] [1, 3])], [("a", Tensor.mk [2] [3, 5])]]
        : List ParamMap).Pairwise compatible ∧
      ((([("a", Tensor.mk [2] [1, 3])] : ParamMap).map Prod.fst).Nodup ∧
      ∀ d ∈ ([[("a", Tensor.mk [2] [1, 3])], [("a", Tensor.mk [2] [3, 5])]] : List ParamMap),
        ∀ p ∈ d, p.2.data.length = p.2.shape.prod)) ∧
    (∃ m, average_client_models [[("a", Tensor.mk [2] [1, 3])], [("a", Tensor.mk [2] [3, 5])]]
        = Except.ok m ∧
      m.map Prod.fst = ([("a", Tensor.mk [2] [1, 3])] : ParamMap).map Prod.fst ∧
      ∀ k t0, ([("a", Tensor.mk [2] [1, 3])] : ParamMap).lookup k = some t0 →
        ∃ t, m.lookup k = some t ∧ t.shape = t0.shape ∧
          t.data.length = t0.data.length ∧
          ∀ j, j < t.data.length →
            t.data.getD j 0
              = meanAt [[("a", Tensor.mk [2] [1, 3])], [("a", Tensor.mk [2] [3, 5])]] k j) :=
  ⟨⟨pairwise_compatible_concrete, by decide, by decide⟩,
   average_client_models_is_mean [("a", Tensor.mk [2] [1, 3])] [[("a", Tensor.mk [2] [3, 5])]]
     pairwise_compatible_concrete (by decide) (by decide)⟩

/-- Claim C5 (refuting evidence): a non-IID partition call in which a
client's requested label range has no matching element does not always
yield an empty/truncated shard — with 2 clients and labels `[0, 0, 0]`,
client 0's range end (digit 4) is absent and greater than every present
label, so `last_index` raises `IndexError` and the whole partition call
crashes (`none`) instead of producing 2 shards. -/
theorem non_iid_partition_crashes_on_missing_label :
    get_non_iid_datasets 2 [0, 0, 0] = none ∧ (4 : Int) ∉ ([0, 0, 0] : List Int) := by
  refine ⟨?_, by decide⟩
  have e1 : first_index [0, 0, 0] 0 3 0 = some 0 :=
    first_index_of_fuel (n := 5) (by decide) (by decide)
  have e2 : last_index [0, 0, 0] 0 3 4 = none :=
    last_index_of_fuel (n := 5) (by decide) (by decide)
  have hSL : List.map Prod.fst
      (sortPairs (([0, 0, 0] : List Int).zip (List.range ([0, 0, 0] : List Int).length)))
      = [0, 0, 0] := by decide
  have hSI : List.map Prod.snd
      (sortPairs (([0, 0, 0] : List Int).zip (List.range ([0, 0, 0] : List Int).length)))
      = [0, 1, 2] := by decide
  have hc0 : clientShard [0, 0, 0] [0, 1, 2] 2 (10 / 2) 0 = none := by
    unfold clientShard
    norm_num [e1, e2]
  simp only [get_non_iid_datasets, hSL, hSI]
  rw [show (List.range 2).map (fun a : Nat => (a : Int)) = ([0, 1] : List Int) from by decide]
  rw [List.mapM_cons, hc0]
  rfl

theorem exists_isFirstOcc {sl : List Int} {v : Int} (hv : v ∈ sl) :
    ∃ f, IsFirstOcc sl v f := by
  have hex : ∃ i, sl[i]? = some v := List.mem_iff_getElem?.mp hv
  exact ⟨Nat.find hex, Nat.find_spec hex, fun j hj => Nat.find_min hex hj⟩

theorem exists_isLastOcc {sl : List Int} {v : Int} (hv : v ∈ sl) :
    ∃ l0, IsLastOcc sl v l0 := by
  have hex : ∃ i, sl[i]? = some v := List.mem_iff_getElem?.mp hv
  obtain ⟨i, hi⟩ := hex
  have hilen : i < sl.length := (List.getElem?_eq_some.mp hi).1
  refine ⟨Nat.findGreatest (fun j => sl[j]? = some v) sl.length,
    Nat.findGreatest_spec (P := fun j => sl[j]? = some v) (le_of_lt hilen) hi, ?_⟩
  intro j hj
  by_cases hjlen : j ≤ sl.length
  · exact Nat.findGreatest_is_greatest hj hjlen
  · rw [List.getElem?_eq_none (by omega)]
    exact fun h => Option.noConfusion h

theorem isFirstOcc_le_pos {sl : List Int} {base x : Int} {fb p : Nat}
    (hs : List.Pairwise (· ≤ ·) sl) (hfb : IsFirstOcc sl base fb)
    (hp : sl[p]? = some x) (hbx : base ≤ x) : fb ≤ p := by
  by_contra hc
  push_neg at hc
  have hx : x ≤ base := sorted_get_le sl hs (le_of_lt hc) hp hfb.1
  have hxb : x = base := le_antisymm hx hbx
  exact hfb.2 p hc (by rw [hp, hxb])

theorem pos_le_isLastOcc {sl : List Int} {top x : Int} {lt p : Nat}
    (hs : List.Pairwise (· ≤ ·) sl) (hlt : IsLastOcc sl top lt)
    (hp : sl[p]? = some x) (hxt : x ≤ top) : p ≤ lt := by
  by_contra hc
  push_neg at hc
  have hx : top ≤ x := sorted_get_le sl hs (le_of_lt hc) hlt.1 hp
  have hxb : x = top := le_antisymm hxt hx
  exact hlt.2 p hc (by rw [hp, hxb])

theorem mapM_option_forall2 {α β : Type} (f : α → Option β) :
    ∀ l : List α, (∀ x ∈ l, ∃ y, f x = some y) →
      ∃ out, l.mapM f = some out ∧ List.Forall₂ (fun x y => f x = some y) l out := by
  intro l
  induction l with
  | nil => intro _; exact ⟨[], rfl, List.Forall₂.nil⟩
  | cons x xs ih =>
    intro h
    obtain ⟨y, hy⟩ := h x (by simp)
    obtain ⟨ys, hys, hf2⟩ := ih (fun z hz => h z (by simp [hz]))
    refine ⟨y :: ys, ?_, List.Forall₂.cons hy hf2⟩
    rw [List.mapM_cons, hy, hys]
    rfl

theorem mem_zip_range {l : List Int} {a : Int} {b : Nat}
    (h : (a, b) ∈ l.zip (List.range l.length)) : l[b]? = some a := by
  obtain ⟨i, hi, heq⟩ := List.mem_iff_getElem.mp h
  have hil : i < l.length := by
    rw [List.length_zip, List.length_range] at hi
    omega
  rw [List.getElem_zip] at heq
  have hb : b = i := by
    have h2 := congrArg Prod.snd heq
    simp only at h2
    rw [← h2, List.getElem_range]
  have ha : l[i] = a := by
    have h2 := congrArg Prod.fst heq
    simpa using h2
  subst hb
  rw [List.getElem?_eq_getElem hil, ha]

theorem mem_take_drop_iff {α : Type} {l : List α} {a b : Nat} {x : α} :
    x ∈ (l.drop a).take b ↔ ∃ p, a ≤ p ∧ p < a + b ∧ l[p]? = some x := by
  rw [List.mem_iff_getElem?]
  constructor
  · rintro ⟨i, hi⟩
    rw [List.getElem?_take] at hi
    by_cases hib : i < b
    · rw [if_pos hib, List.getElem?_drop] at hi
      exact ⟨a + i, by omega, by omega, hi⟩
    · rw [if_neg hib] at hi
      cases hi
  · rintro ⟨p, hap, hpb, hp⟩
    refine ⟨p - a, ?_⟩
    rw [List.getElem?_take, if_pos (by omega), List.getElem?_drop,
      show a + (p - a) = p by omega]
    exact hp

/-- Claim C6: for a non-IID partition call over the 10-digit label
alphabet with `k` clients where `k` divides 10 (and no IID mix), on a
dataset whose labels lie in `[0, 10)` with every digit present: the call
yields exactly `k` shards; client `i`'s shard contains samples of exactly
the `10 / k` digits of its contiguous range (its label set is exactly
that interval, hence `10 / k` distinct labels); different clients' label
sets are pairwise disjoint; and every dataset index lands in some shard —
in particular the last client's upper boundary absorbs the end of the
sorted sequence. -/
theorem non_iid_partition_labels (num_clients : Nat) (labels : List Int)
    (hk : 0 < num_clients) (hdvd : num_clients ∣ 10)
    (hrange : ∀ x ∈ labels, 0 ≤ x ∧ x < 10)
    (hall : ∀ d ∈ List.range 10, (d : Int) ∈ labels) :
    NonIIDGood num_clients labels := by
  classical
  obtain ⟨n, hn⟩ : ∃ m, labels.length = m := ⟨_, rfl⟩
  obtain ⟨s, hsdef⟩ : ∃ t, sortPairs (labels.zip (List.range labels.length)) = t := ⟨_, rfl⟩
  obtain ⟨SL, hSLdef⟩ : ∃ u, s.map Prod.fst = u := ⟨_, rfl⟩
  obtain ⟨SI, hSIdef⟩ : ∃ u, s.map Prod.snd = u := ⟨_, rfl⟩
  obtain ⟨dpc, hdpcdef⟩ : ∃ u, 10 / num_clients = u := ⟨_, rfl⟩
  have hperm : s.Perm (labels.zip (List.range labels.length)) :=
    hsdef ▸ List.perm_insertionSort _ _
  have hsorted2 : List.Pairwise labelLe s := hsdef ▸ List.sorted_insertionSort labelLe _
  have hsorted : List.Pairwise (· ≤ ·) SL := hSLdef ▸ List.pairwise_map.mpr hsorted2
  have hslen : s.length = n := by
    rw [hperm.length_eq, List.length_zip, List.length_range, hn]
    omega
  have hSLlen : SL.length = n := by rw [← hSLdef, List.length_map, hslen]
  have hSIlen : SI.length = n := by rw [← hSIdef, List.length_map, hslen]
  have hP1 : ∀ p ∈ s, labels[p.2]? = some p.1 := by
    intro p hp
    exact mem_zip_range ((hperm.mem_iff).mp hp)
  have hSLperm : SL.Perm labels := by
    have h2 := hperm.map Prod.fst
    rwa [List.map_fst_zip _ _ (by rw [List.length_range]), hSLdef] at h2
  have hSIperm : SI.Perm (List.range n) := by
    have h2 := hperm.map Prod.snd
    rwa [List.map_snd_zip _ _ (by rw [List.length_range]), hSIdef, hn] at h2
  have hpos : ∀ (p : Nat) (hp : p < s.length), SL[p]? = some (s.get ⟨p, hp⟩).1 ∧
      SI[p]? = some (s.get ⟨p, hp⟩).2 ∧
      labels[(s.get ⟨p, hp⟩).2]? = some (s.get ⟨p, hp⟩).1 := by
    intro p hps
    refine ⟨?_, ?_, hP1 _ (List.get_mem s p hps)⟩
    · rw [← hSLdef, List.getElem?_map, List.getElem?_eq_getElem hps]
      rfl
    · rw [← hSIdef, List.getElem?_map, List.getElem?_eq_getElem hps]
      rfl
  have hrangeSL : ∀ x ∈ SL, 0 ≤ x ∧ x < 10 := fun x hx => hrange x (hSLperm.subset hx)
  have hallSL : ∀ d : Int, 0 ≤ d → d < 10 → d ∈ SL := by
    intro d h0 h10
    have hmem := hall d.toNat (List.mem_range.mpr (by omega))
    rw [Int.toNat_of_nonneg h0] at hmem
    exact hSLperm.symm.subset hmem
  have hkdpc : num_clients * dpc = 10 := hdpcdef ▸ Nat.mul_div_cancel' hdvd
  have hdpcpos : 0 < dpc := hdpcdef ▸ Nat.div_pos (Nat.le_of_dvd (by norm_num) hdvd) hk
  have hdpcposZ : (1 : Int) ≤ (dpc : Int) := by exact_mod_cast hdpcpos
  have hcast10 : (num_clients : Int) * (dpc : Int) = 10 := by exact_mod_cast hkdpc
  have htop9all : ∀ i : Nat, i < num_clients → (i : Int) * (dpc : Int) + (dpc : Int) - 1 ≤ 9 := by
    intro i hi
    have hi1dpc : (i + 1) * dpc ≤ 10 := by
      calc (i + 1) * dpc ≤ num_clients * dpc := Nat.mul_le_mul_right _ (by omega)
      _ = 10 := hkdpc
    have hi1dpcZ : ((i : Int) + 1) * (dpc : Int) ≤ 10 := by exact_mod_cast hi1dpc
    have hexpand : ((i : Int) + 1) * (dpc : Int) = (i : Int) * dpc + dpc := by ring
    omega
  have hclient : ∀ i : Nat, i < num_clients → ∃ fb lt : Nat,
      IsFirstOcc SL ((i : Int) * (dpc : Int)) fb ∧
      IsLastOcc SL ((i : Int) * (dpc : Int) + (dpc : Int) - 1) lt ∧
      fb ≤ lt ∧ lt < n ∧
      clientShard SL SI num_clients dpc (i : Int)
        = some (pySlice SI (fb : Int) ((lt : Int) + 1)) := by
    intro i hi
    have hi1dpc : (i + 1) * dpc ≤ 10 := by
      calc (i + 1) * dpc ≤ num_clients * dpc := Nat.mul_le_mul_right _ (by omega)
      _ = 10 := hkdpc
    have hi1dpcZ : ((i : Int) + 1) * (dpc : Int) ≤ 10 := by exact_mod_cast hi1dpc
    have hexpand : ((i : Int) + 1) * (dpc : Int) = (i : Int) * dpc + dpc := by ring
    have hbase0 : (0 : Int) ≤ (i : Int) * dpc := by positivity
    have htop9 : (i : Int) * dpc + dpc - 1 ≤ 9 := by omega
    have hbt : (i : Int) * dpc ≤ (i : Int) * dpc + dpc - 1 := by omega
    have hbasemem : (i : Int) * dpc ∈ SL := hallSL _ hbase0 (by omega)
    have htopmem : (i : Int) * dpc + dpc - 1 ∈ SL := hallSL _ (by omega) (by omega)
    obtain ⟨fb, hfb⟩ := exists_isFirstOcc hbasemem
    obtain ⟨lt, hlt⟩ := exists_isLastOcc htopmem
    have hfblen : fb < n := by
      have h2 := (List.getElem?_eq_some.mp hfb.1).1
      omega
    have hltlen : lt < n := by
      have h2 := (List.getElem?_eq_some.mp hlt.1).1
      omega
    have hfble : fb ≤ lt := isFirstOcc_le_pos hsorted hfb hlt.1 hbt
    refine ⟨fb, lt, hfb, hlt, hfble, hltlen, ?_⟩
    unfold clientShard
    have hfi : first_index SL 0 (SL.length : Int) ((i : Int) * (dpc : Int))
        = some (fb : Int) :=
      first_index_found SL _ fb hsorted hfb.1 hfb.2 (n + 1) 0 (SL.length : Int)
        (by omega) (by omega) (by omega) (by omega) (by omega)
    simp only [Option.bind_eq_bind, hfi, Option.some_bind]
    by_cases hilast : (i : Int) = (num_clients : Int) - 1
    · have htopeq : (i : Int) * dpc + dpc - 1 = 9 := by
        rw [hilast]
        linear_combination hcast10
      have h9mem : (9 : Int) ∈ SL := htopeq ▸ htopmem
      have hnpos : 0 < n := by
        have h2 := List.length_pos.mpr (List.ne_nil_of_mem h9mem)
        omega
      have hlast9 : SL[n - 1]? = some 9 := by
        have hlenlt : n - 1 < SL.length := by omega
        rw [List.getElem?_eq_getElem hlenlt]
        have hmem9 : SL[n - 1] ∈ SL := List.getElem_mem hlenlt
        have hle9 : SL[n - 1] < 10 := (hrangeSL _ hmem9).2
        obtain ⟨p, hp⟩ := List.mem_iff_getElem?.mp h9mem
        have hplen : p < SL.length := (List.getElem?_eq_some.mp hp).1
        have hge9 : (9 : Int) ≤ SL[n - 1] := by
          refine sorted_get_le SL hsorted (i := p) (j := n - 1) (by omega) hp ?_
          rw [List.getElem?_eq_getElem hlenlt]
        rw [show SL[n - 1] = (9 : Int) by omega]
      have hlt9 : IsLastOcc SL 9 lt := htopeq ▸ hlt
      have hltn : lt = n - 1 := by
        rcases Nat.lt_or_ge lt (n - 1) with h2 | h2
        · exact absurd hlast9 (hlt9.2 (n - 1) h2)
        · omega
      rw [if_pos hilast]
      rw [show ((SL.length : Int) - 1 : Int) = (lt : Int) by omega]
    · rw [if_neg hilast]
      have hli : last_index SL 0 (SL.length : Int)
          ((i : Int) * (dpc : Int) + (dpc : Int) - 1) = some (lt : Int) :=
        last_index_found SL _ lt hsorted hlt.1 hlt.2 (n + 1) 0 (SL.length : Int)
          (by omega) (by omega) (by omega) (by omega) (by omega)
      simp only [Option.bind_eq_bind, hli, Option.some_bind]
  have hLmem : ∀ x ∈ (List.range num_clients).map (fun a : Nat => (a : Int)),
      ∃ y, clientShard SL SI num_clients dpc x = some y := by
    intro x hx
    obtain ⟨i, hi, rfl⟩ := List.mem_map.mp hx
    obtain ⟨fb, lt, -, -, -, -, heval⟩ := hclient i (List.mem_range.mp hi)
    exact ⟨_, heval⟩
  obtain ⟨shards, hsh, hf2⟩ :=
    mapM_option_forall2 (clientShard SL SI num_clients dpc) _ hLmem
  have hlen : shards.length = num_clients := by
    have h2 := hf2.length_eq
    rw [List.length_map, List.length_range] at h2
    omega
  have hshget : ∀ (i : Nat) (hi : i < shards.length),
      clientShard SL SI num_clients dpc (i : Int) = some shards[i] := by
    intro i hi
    have h2 := (List.forall₂_iff_get.mp hf2).2 i
      (by rw [List.length_map, List.length_range]; omega) hi
    rw [List.get_eq_getElem, List.get_eq_getElem, List.getElem_map, List.getElem_range] at h2
    exact h2
  have hslice : ∀ fb lt : Nat, fb ≤ lt → lt < n →
      pySlice SI (fb : Int) ((lt : Int) + 1) = (SI.drop fb).take (lt + 1 - fb) := by
    intro fb lt hfble hltn
    unfold pySlice pySliceIdx
    rw [if_neg (by omega : ¬((fb : Int) < 0)), if_neg (by omega : ¬((lt : Int) + 1 < 0))]
    rw [show ((fb : Int)).toNat = fb from by omega,
      show (((lt : Int) + 1)).toNat = lt + 1 from by omega]
    rw [min_eq_left (by omega), min_eq_left (by omega)]
  have hmemshard : ∀ fb lt j : Nat, fb ≤ lt → lt < n →
      (j ∈ (SI.drop fb).take (lt + 1 - fb) ↔ ∃ p, fb ≤ p ∧ p ≤ lt ∧ SI[p]? = some j) := by
    intro fb lt j hfble hltn
    rw [mem_take_drop_iff]
    constructor
    · rintro ⟨p, h1, h2, h3⟩
      exact ⟨p, h1, by omega, h3⟩
    · rintro ⟨p, h1, h2, h3⟩
      exact ⟨p, h1, by omega, h3⟩
  have hlabmem : ∀ fb lt : Nat, fb ≤ lt → lt < n → ∀ x : Int,
      (x ∈ shardLabels labels ((SI.drop fb).take (lt + 1 - fb)) ↔
        ∃ p, fb ≤ p ∧ p ≤ lt ∧ SL[p]? = some x) := by
    intro fb lt hfble hltn x
    unfold shardLabels
    rw [List.mem_map]
    constructor
    · rintro ⟨j, hj, rfl⟩
      obtain ⟨p, h1, h2, h3⟩ := (hmemshard fb lt j hfble hltn).mp hj
      have hplen : p < s.length := by
        have h4 := (List.getElem?_eq_some.mp h3).1
        omega
      obtain ⟨hSLp, hSIp, hlabp⟩ := hpos p hplen
      have hjeq : j = (s.get ⟨p, hplen⟩).2 := by
        rw [h3] at hSIp
        exact (Option.some.inj hSIp.symm).symm
      refine ⟨p, h1, h2, ?_⟩
      rw [hSLp]
      have h5 : labels.getD j 0 = (s.get ⟨p, hplen⟩).1 := by
        rw [List.getD_eq_getElem?_getD, hjeq, hlabp]
        rfl
      rw [h5]
    · rintro ⟨p, h1, h2, h3⟩
      have hplen : p < s.length := by
        have h4 := (List.getElem?_eq_some.mp h3).1
        omega
      obtain ⟨hSLp, hSIp, hlabp⟩ := hpos p hplen
      refine ⟨(s.get ⟨p, hplen⟩).2, (hmemshard _ _ _ hfble hltn).mpr ⟨p, h1, h2, hSIp⟩, ?_⟩
      have hx : x = (s.get ⟨p, hplen⟩).1 := by
        rw [h3] at hSLp
        exact (Option.some.inj hSLp.symm).symm
      rw [List.getD_eq_getElem?_getD, hlabp, hx]
      rfl
  have hinterval : ∀ i : Nat, i < num_clients → ∀ fb lt : Nat,
      IsFirstOcc SL ((i : Int) * dpc) fb →
      IsLastOcc SL ((i : Int) * dpc + dpc - 1) lt →
      fb ≤ lt → lt < n → ∀ x : Int,
      ((∃ p, fb ≤ p ∧ p ≤ lt ∧ SL[p]? = some x) ↔
        ((i : Int) * dpc ≤ x ∧ x ≤ (i : Int) * dpc + dpc - 1)) := by
    intro i hi fb lt hfb hlt hfble hltn x
    constructor
    · rintro ⟨p, h1, h2, h3⟩
      exact ⟨sorted_get_le SL hsorted h1 hfb.1 h3, sorted_get_le SL hsorted h2 h3 hlt.1⟩
    · rintro ⟨hbx, hxt⟩
      have htop9 := htop9all i hi
      have hx0 : (0 : Int) ≤ x := le_trans (by positivity) hbx
      have hx9 : x < 10 := by omega
      obtain ⟨p, hp⟩ := List.mem_iff_getElem?.mp (hallSL x hx0 hx9)
      exact ⟨p, isFirstOcc_le_pos hsorted hfb hp hbx,
        pos_le_isLastOcc hsorted hlt hp hxt, hp⟩
  have hish : ∀ i : Fin shards.length, ∃ fb lt : Nat,
      IsFirstOcc SL (((i : Nat) : Int) * dpc) fb ∧
      IsLastOcc SL (((i : Nat) : Int) * dpc + dpc - 1) lt ∧
      fb ≤ lt ∧ lt < n ∧
      shards.get i = (SI.drop fb).take (lt + 1 - fb) := by
    intro i
    have hik : (i : Nat) < num_clients := by
      have h2 := i.isLt
      omega
    obtain ⟨fb, lt, hfb, hlt, hfble, hltn, heval⟩ := hclient (i : Nat) hik
    refine ⟨fb, lt, hfb, hlt, hfble, hltn, ?_⟩
    have h2 := hshget (i : Nat) i.isLt
    rw [heval] at h2
    rw [List.get_eq_getElem, ← Option.some.inj h2, hslice fb lt hfble hltn]
  have hexpand : ∀ i : Nat, ((i : Int) + 1) * (dpc : Int) = (i : Int) * dpc + dpc := by
    intro i
    ring
  have hsep : ∀ a b : Nat, a < b → ((a : Int) + 1) * (dpc : Int) ≤ (b : Int) * dpc := by
    intro a b hab
    have h2 := Nat.mul_le_mul_right dpc (show a + 1 ≤ b by omega)
    exact_mod_cast h2
  unfold NonIIDGood
  refine ⟨shards, ?_, hlen, ?_, ?_, ?_, ?_⟩
  · simp only [get_non_iid_datasets]
    rw [hsdef, hSLdef, hSIdef, hdpcdef]
    exact hsh
  · -- each client's labels are exactly its digit interval
    intro i x
    have hik : (i : Nat) < num_clients := by
      have h2 := i.isLt
      omega
    obtain ⟨fb, lt, hfb, hlt, hfble, hltn, hseq⟩ := hish i
    rw [hseq, hdpcdef] at *
    rw [hlabmem fb lt hfble hltn x,
      hinterval (i : Nat) hik fb lt hfb hlt hfble hltn x]
    have h2 := hexpand (i : Nat)
    constructor
    · rintro ⟨ha, hb⟩
      exact ⟨ha, by omega⟩
    · rintro ⟨ha, hb⟩
      exact ⟨ha, by omega⟩
  · -- exactly 10 / num_clients distinct labels per shard
    intro i
    have hik : (i : Nat) < num_clients := by
      have h2 := i.isLt
      omega
    obtain ⟨fb, lt, hfb, hlt, hfble, hltn, hseq⟩ := hish i
    have hset : (shardLabels labels (shards.get i)).toFinset
        = Finset.Icc (((i : Nat) : Int) * dpc) (((i : Nat) : Int) * dpc + dpc - 1) := by
      ext x
      rw [List.mem_toFinset, hseq, hlabmem fb lt hfble hltn x,
        hinterval (i : Nat) hik fb lt hfb hlt hfble hltn x, Finset.mem_Icc]
    rw [hset, Int.card_Icc, ← hdpcdef]
    omega
  · -- disjoint label sets
    intro i j hij x hxi hxj
    have hik : (i : Nat) < num_clients := by
      have h2 := i.isLt
      omega
    have hjk : (j : Nat) < num_clients := by
      have h2 := j.isLt
      omega
    obtain ⟨fbi, lti, hfbi, hlti, hfblei, hltni, hseqi⟩ := hish i
    obtain ⟨fbj, ltj, hfbj, hltj, hfblej, hltnj, hseqj⟩ := hish j
    rw [hseqi] at hxi
    rw [hseqj] at hxj
    have hbi := (hinterval (i : Nat) hik fbi lti hfbi hlti hfblei hltni x).mp
      ((hlabmem fbi lti hfblei hltni x).mp hxi)
    have hbj := (hinterval (j : Nat) hjk fbj ltj hfbj hltj hfblej hltnj x).mp
      ((hlabmem fbj ltj hfblej hltnj x).mp hxj)
    have hvne : (i : Nat) ≠ (j : Nat) := fun h2 => hij (Fin.ext h2)
    rcases Nat.lt_or_ge (i : Nat) (j : Nat) with h2 | h2
    · have h3 := hsep (i : Nat) (j : Nat) h2
      have h4 := hexpand (i : Nat)
      omega
    · have h5 : (j : Nat) < (i : Nat) := by omega
      have h3 := hsep (j : Nat) (i : Nat) h5
      have h4 := hexpand (j : Nat)
      omega
  · -- every dataset index lands in some shard
    intro idx hidx
    have hidxn : idx < n := by omega
    have hmemSI : idx ∈ SI := hSIperm.symm.subset (List.mem_range.mpr hidxn)
    obtain ⟨p, hp⟩ := List.mem_iff_getElem?.mp hmemSI
    have hplen : p < s.length := by
      have h2 := (List.getElem?_eq_some.mp hp).1
      omega
    obtain ⟨hSLp, hSIp, hlabp⟩ := hpos p hplen
    have hv : (s.get ⟨p, hplen⟩).1 ∈ SL := by
      obtain ⟨h2, h3⟩ := List.getElem?_eq_some.mp hSLp
      exact h3 ▸ List.getElem_mem h2
    obtain ⟨hv0, hv10⟩ := hrangeSL _ hv
    have hvt : (((s.get ⟨p, hplen⟩).1.toNat : Nat) : Int) = (s.get ⟨p, hplen⟩).1 :=
      Int.toNat_of_nonneg hv0
    have hvt10 : (s.get ⟨p, hplen⟩).1.toNat < 10 := by omega
    have hiCk : (s.get ⟨p, hplen⟩).1.toNat / dpc < num_clients := by
      rw [Nat.div_lt_iff_lt_mul hdpcpos]
      calc (s.get ⟨p, hplen⟩).1.toNat < 10 := hvt10
      _ = num_clients * dpc := hkdpc.symm
    have hA : (s.get ⟨p, hplen⟩).1.toNat / dpc * dpc ≤ (s.get ⟨p, hplen⟩).1.toNat :=
      Nat.div_mul_le_self _ _
    have hB : (s.get ⟨p, hplen⟩).1.toNat < (s.get ⟨p, hplen⟩).1.toNat / dpc * dpc + dpc := by
      have hdm := Nat.div_add_mod (s.get ⟨p, hplen⟩).1.toNat dpc
      have hmod := Nat.mod_lt (s.get ⟨p, hplen⟩).1.toNat hdpcpos
      rw [Nat.mul_comm] at hdm
      omega
    have hcastA : (((s.get ⟨p, hplen⟩).1.toNat / dpc * dpc : Nat) : Int)
        = (((s.get ⟨p, hplen⟩).1.toNat / dpc : Nat) : Int) * (dpc : Int) := by
      push_cast
      ring
    have hAZ : (((s.get ⟨p, hplen⟩).1.toNat / dpc : Nat) : Int) * (dpc : Int)
        ≤ (s.get ⟨p, hplen⟩).1 := by omega
    have hBZ : (s.get ⟨p, hplen⟩).1
        ≤ (((s.get ⟨p, hplen⟩).1.toNat / dpc : Nat) : Int) * (dpc : Int) + dpc - 1 := by omega
    refine ⟨⟨(s.get ⟨p, hplen⟩).1.toNat / dpc, by omega⟩, ?_⟩
    obtain ⟨fb, lt, hfb, hlt, hfble, hltn, hseq⟩ :=
      hish ⟨(s.get ⟨p, hplen⟩).1.toNat / dpc, by omega⟩
    rw [hseq]
    refine (hmemshard fb lt idx hfble hltn).mpr ⟨p, ?_, ?_, hp⟩
    · exact isFirstOcc_le_pos hsorted hfb hSLp hAZ
    · exact pos_le_isLastOcc hsorted hlt hSLp hBZ

/-- Witness for claim C6: 2 clients over a dataset holding one sample of
each digit. -/
theorem non_iid_partition_labels_witness :
    ((0 < 2 ∧ 2 ∣ 10) ∧
      (∀ x ∈ ([0, 1, 2, 3, 4, 5, 6, 7, 8, 9] : List Int), 0 ≤ x ∧ x < 10) ∧
      (∀ d ∈ List.range 10, (d : Int) ∈ ([0, 1, 2, 3, 4, 5, 6, 7, 8, 9] : List Int))) ∧
    NonIIDGood 2 [0, 1, 2, 3, 4, 5, 6, 7, 8, 9] :=
  ⟨⟨⟨by decide, by decide⟩, by decide, by decide⟩,
   non_iid_partition_labels 2 [0, 1, 2, 3, 4, 5, 6, 7, 8, 9]
     (by decide) (by decide) (by decide) (by decide)⟩
